import Mathlib

/-!
Verification development for the falcon_transfer core.

Shallow embedding of the range algebra (`src/hot_file/file_range.rs`,
`src/hot_file/interval.rs`), the write-back cache (`src/hot_file/hot_file.rs`),
the message codec (`src/inbound/codec.rs`, `src/inbound/msg.rs`) and the link
state table (`src/link/link_state.rs`, `src/link/table.rs`).

Machine integers (`usize`, `u64`, `u32`, `u16`, `u8`) are modelled as `Nat`;
wrap-around is written explicitly (`% 256` for the `u8` failure counter) at the
one place the embedded claims can reach it.  Byte buffers are `List Nat` whose
elements are below 256 on every path produced by an encoder.
-/

/-! ### FileRange (src/hot_file/file_range.rs)

Half-open range `[start, stop)` over `usize`.  The Rust field `end` is renamed
`stop` because `end` is a Lean keyword. -/

structure FileRange where
  start : Nat
  stop : Nat
deriving DecidableEq, Repr

namespace FileRange

/-- `FileRange::try_new`: succeeds iff `start < end`. -/
def tryNew (start stop : Nat) : Option FileRange :=
  if start < stop then some ⟨start, stop⟩ else none

/-- `FileRange::interval`: the length `end - start`. -/
def interval (r : FileRange) : Nat := r.stop - r.start

/-- `FileRange::intersect`: `Some([max start, min end))` iff that is non-empty. -/
def intersect (a b : FileRange) : Option FileRange :=
  let start := max a.start b.start
  let stop := min a.stop b.stop
  if start < stop then some ⟨start, stop⟩ else none

/-- `FileRange::union`: defined iff `self.end ≥ other.start ∧ other.end ≥ self.start`
    (touching or overlapping); the hull otherwise. -/
def union (a b : FileRange) : Option FileRange :=
  if b.start ≤ a.stop ∧ a.start ≤ b.stop then
    some ⟨min a.start b.start, max a.stop b.stop⟩
  else none

/-- `FileRange::contains`. -/
def contains (a b : FileRange) : Bool :=
  a.start ≤ b.start ∧ b.stop ≤ a.stop

/-- Validity `start < end` (invariant `I-M2` of the spec). -/
def Valid (r : FileRange) : Prop := r.start < r.stop

instance : DecidablePred Valid := fun r =>
  inferInstanceAs (Decidable (r.start < r.stop))

/-- Membership of a point in a range. -/
def memR (r : FileRange) (p : Nat) : Prop := r.start ≤ p ∧ p < r.stop

instance (r : FileRange) (p : Nat) : Decidable (memR r p) :=
  inferInstanceAs (Decidable (_ ∧ _))

end FileRange

/-! ### Interval (src/hot_file/interval.rs)

The second, structurally identical half-open range type of the source.  Only
its `union` differs: the guard is a disjunction. -/

structure RsInterval where
  start : Nat
  stop : Nat
deriving DecidableEq, Repr

namespace RsInterval

/-- `Interval::try_new`. -/
def tryNew (start stop : Nat) : Option RsInterval :=
  if start < stop then some ⟨start, stop⟩ else none

/-- `Interval::union` from src/hot_file/interval.rs:
    `if self.start <= other.end || self.end >= other.start { try_new(min, max) } else { None }`.
    Note the `||` where `FileRange::union` has `&&`. -/
def union (a b : RsInterval) : Option RsInterval :=
  if a.start ≤ b.stop ∨ b.start ≤ a.stop then
    tryNew (min a.start b.start) (max a.stop b.stop)
  else none

def Valid (i : RsInterval) : Prop := i.start < i.stop

instance : DecidablePred Valid := fun i =>
  inferInstanceAs (Decidable (i.start < i.stop))

end RsInterval

/-- For valid ranges, `RsInterval.union` never takes the `None` branch: its guard
    `a.start ≤ b.stop ∨ b.start ≤ a.stop` cannot fail when both ranges are
    non-empty. -/
theorem RsInterval.union_eq_hull (a b : RsInterval) (ha : a.Valid) (hb : b.Valid) :
    RsInterval.union a b = some ⟨min a.start b.start, max a.stop b.stop⟩ := by
  unfold RsInterval.union RsInterval.tryNew
  rcases Nat.le_total a.start b.stop with h | h
  · rw [if_pos (Or.inl h), if_pos]
    exact lt_of_lt_of_le (lt_of_le_of_lt (min_le_left _ _) ha) (le_max_left _ _)
  · have hba : b.start ≤ a.stop := le_of_lt (lt_of_lt_of_le hb (le_trans h (le_of_lt ha)))
    rw [if_pos (Or.inr hba), if_pos]
    exact lt_of_lt_of_le (lt_of_le_of_lt (min_le_left _ _) ha) (le_max_left _ _)

/-- C7 counterexample: the ranges `[0,1)` and `[5,6)` are disjoint with a
    positive gap, yet `Interval::union` (modelled as `RsInterval.union`; the Lean name `Interval` is taken by Mathlib) returns `Some([0,6))`, not `None` as the
    claim states for both implementations. -/
theorem C7_counterexample :
    RsInterval.union ⟨0, 1⟩ ⟨5, 6⟩ = some ⟨0, 6⟩ ∧
      RsInterval.union ⟨0, 1⟩ ⟨5, 6⟩ ≠ none := by
  constructor <;> decide

/-- C7 (amended): for every pair of valid ranges, `FileRange::union` returns
    `Some` of the hull `[min start, max end)` exactly when the ranges touch or
    overlap (`a.end ≥ b.start ∧ b.end ≥ a.start`) and `None` when they are
    disjoint with a positive gap; `Interval::union`, whose guard is the
    disjunction `a.start ≤ b.end || b.start ≤ a.end`, instead returns the hull
    for every pair of valid ranges, including disjoint ones. -/
theorem C7_union_semantics (a b : FileRange) (a2 b2 : RsInterval)
    (ha : a.Valid) (hb : b.Valid) (ha2 : a2.Valid) (hb2 : b2.Valid) :
    (FileRange.union a b =
        if b.start ≤ a.stop ∧ a.start ≤ b.stop then
          some ⟨min a.start b.start, max a.stop b.stop⟩
        else none) ∧
      (¬(b.start ≤ a.stop ∧ a.start ≤ b.stop) → FileRange.union a b = none) ∧
      RsInterval.union a2 b2 = some ⟨min a2.start b2.start, max a2.stop b2.stop⟩ := by
  refine ⟨rfl, fun h => ?_, RsInterval.union_eq_hull a2 b2 ha2 hb2⟩
  simp only [FileRange.union, if_neg h]

/-- C7 witness: evaluates the amended statement on concrete valid ranges. -/
theorem C7_witness :
    (FileRange.union ⟨0, 4⟩ ⟨5, 10⟩ = none) ∧
      (FileRange.union ⟨0, 5⟩ ⟨5, 10⟩ = some ⟨0, 10⟩) ∧
      RsInterval.union ⟨0, 1⟩ ⟨5, 6⟩ = some ⟨0, 6⟩ := by
  have h := C7_union_semantics ⟨0, 4⟩ ⟨5, 10⟩ ⟨0, 1⟩ ⟨5, 6⟩
    (by decide) (by decide) (by decide) (by decide)
  refine ⟨?_, by decide, h.2.2⟩
  rw [h.1]; decide

/-! ### LinkState (src/link/link_state.rs) -/

/-- `LinkState`: the `EndPoint` pair is opaque to every embedded claim, so the
    two addresses are modelled as plain identifiers; `metric : u64`,
    `failure_count : AtomicU8`, `is_healthy : AtomicBool`.  (`last_used` is a
    timestamp that no claim touches and is omitted.) -/
structure LinkState where
  addrLocal : Nat
  addrRemote : Nat
  metric : Nat
  failureCount : Nat
  isHealthy : Bool
deriving DecidableEq, Repr

namespace LinkState

/-- `LinkState::new`: fresh link, zero failures, healthy.  (The Rust parameter
    `local` is renamed `lcl`: `local` is a Lean keyword.) -/
def new (lcl remote metric : Nat) : LinkState :=
  ⟨lcl, remote, metric, 0, true⟩

/-- `LinkState::weight`: `1_000_000 / (metric + 1)` in truncating `u64`
    division.  (`metric + 1` would wrap only at `u64::MAX`, unreachable in any
    embedded claim.) -/
def weight (l : LinkState) : Nat := 1000000 / (l.metric + 1)

end LinkState

/-- Outcome of `LinkState::deacitve`: `resume d` is `Some(ResumeTask)` with a
    `d`-second delay, `evict` is `None`, and `panicked` is the
    `0 => unreachable!()` arm (reachable only after the `u8` counter wraps past
    255). -/
inductive DeacitveOut
  | panicked
  | resume (delaySecs : Nat)
  | evict
deriving DecidableEq, Repr

/-- `LinkState::deacitve`: `failure_count.fetch_add(1)` wraps as a `u8`
    (modelled `% 256`), the link is marked unhealthy, and the delay is chosen by
    the new count: 1 ↦ 5 s, 2 ↦ 30 s, 3 ↦ 1 min, anything ≥ 4 ↦ eviction. -/
def deacitve (l : LinkState) : LinkState × DeacitveOut :=
  let fc := (l.failureCount + 1) % 256
  let out : DeacitveOut :=
    match fc with
    | 0 => .panicked
    | 1 => .resume 5
    | 2 => .resume 30
    | 3 => .resume 60
    | _ => .evict
  ({ l with failureCount := fc, isHealthy := false }, out)

/-- `k` consecutive `deacitve` invocations on one link. -/
def iterDeacitve (l : LinkState) : Nat → LinkState
  | 0 => l
  | k + 1 => (deacitve (iterDeacitve l k)).1

/-! ### Rust slice::binary_search_by

`LinkStateTable::assign` resolves the drawn value against the prefix-weight
vector with `binary_search_by(|probe| probe.cmp(&selected)).unwrap_or_else(|i| i)`.
The loop below is the branchless standard-library algorithm: keep a window
`[base, base + size)`; while `size > 1` probe `mid = base + size/2`, move `base`
to `mid` unless the probe is greater than the target, and shrink
`size -= size/2`; finally compare `l[base]`.  The loop is written with an
explicit fuel argument (`size` strictly decreases each round, so fuel `size`
always suffices) so that it evaluates by `decide`. -/

def bsGo (l : List Nat) (t : Nat) : Nat → Nat → Nat → Nat
  | 0, base, _ => base
  | fuel + 1, base, size =>
    if size ≤ 1 then base
    else
      let half := size / 2
      let mid := base + half
      bsGo l t fuel (if t < l.getD mid 0 then base else mid) (size - half)

/-- `slice::binary_search_by` with comparator `probe.cmp(&target)`:
    `Sum.inl i` models `Ok(i)`, `Sum.inr i` models `Err(i)`. -/
def binarySearch (l : List Nat) (t : Nat) : Sum Nat Nat :=
  if l.length = 0 then Sum.inr 0
  else
    let base := bsGo l t l.length 0 l.length
    let e := l.getD base 0
    if e = t then Sum.inl base
    else Sum.inr (base + if e < t then 1 else 0)

/-- `binary_search_by(..).unwrap_or_else(|i| i)`: the selected candidate index. -/
def selectedIndex (l : List Nat) (t : Nat) : Nat :=
  match binarySearch l t with
  | Sum.inl i => i
  | Sum.inr i => i

/-- The selection rule the spec describes (modelled from the spec sentence
    "binary-search `prefix_weights` for the smallest index whose prefix sum is
    > `r`"): for a sorted list this is the length of the prefix of sums `≤ r`. -/
def specSmallestIdxGt (l : List Nat) (r : Nat) : Nat :=
  (l.takeWhile (fun x => decide (x ≤ r))).length

/-- The prefix-weight vector: Rust
    `candidates.iter().scan(0, |acc, l| { *acc += l.weight(); Some(*acc) })`. -/
def prefixSums (acc : Nat) : List Nat → List Nat
  | [] => []
  | w :: ws => (acc + w) :: prefixSums (acc + w) ws

/-! ### LinkStateTable (src/link/table.rs) -/

/-- `LinkError` from src/link/link_state.rs. -/
inductive LinkError
  | LinksNotFound
  | BondNotFound
deriving DecidableEq, Repr

/-- The table: `links : DashMap<HostId, Bond>` becomes an association list from
    host id to the bond's ordered link-id set (`IndexSet` insertion order), and
    the shared `Arc<LinkState>` allocations live in `heap`, keyed by link id; an
    id is present in `heap` exactly while some bond still owns the `Arc` (the
    only strong owner in this sequential model, `solve` closures holding
    weak references). -/
structure TableState where
  bonds : List (Nat × List Nat)
  heap : List (Nat × LinkState)
deriving DecidableEq, Repr

/-- Healthy candidates of a bond, in bond order:
    `bond.links.iter().filter(|link| link.is_healthy.load(..))`. -/
def healthyCands (st : TableState) (lids : List Nat) : List (Nat × LinkState) :=
  lids.filterMap fun lid =>
    (List.lookup lid st.heap).bind fun l => if l.isHealthy then some (lid, l) else none

/-- Total weight of candidates (`fold` with `saturating_add`; the saturation
    point `u64::MAX` is unreachable for any list these claims quantify over, so
    plain addition is used). -/
def totalWeightOf (cands : List (Nat × LinkState)) : Nat :=
  cands.foldl (fun acc c => acc + c.2.weight) 0

/-- `LinkStateTable::assign` (src/link/table.rs): fetch the bond
    (`BondNotFound` when absent), keep healthy links, fail with
    `LinksNotFound` when there is no candidate or the total weight is zero,
    draw `r ∈ [0, total)` (modelled by the function `draw`), binary-search the
    prefix weights, and return the selected link id (from which the
    `AssignedLink` endpoints and `solve` closure are built).  Rust indexes
    `candidates[selected_index]`, which is always in bounds when
    `draw total < total`; `getD` supplies an irrelevant default otherwise. -/
def assignT (st : TableState) (host : Nat) (draw : Nat → Nat) : Except LinkError Nat :=
  match List.lookup host st.bonds with
  | none => .error .BondNotFound
  | some lids =>
    let cands := healthyCands st lids
    let total := totalWeightOf cands
    if cands.isEmpty ∨ total = 0 then .error .LinksNotFound
    else
      let r := draw total
      let prefixW := prefixSums 0 (cands.map (fun c => c.2.weight))
      let idx := selectedIndex prefixW r
      .ok (cands.getD idx (0, LinkState.new 0 0 0)).1

/-- `IndexSet::swap_remove`: replace the removed slot by the last element and
    pop; no-op when the value is absent. -/
def removeSwap (ls : List Nat) (x : Nat) : List Nat :=
  let i := ls.findIdx (fun y => y = x)
  if i = ls.length then ls
  else (ls.set i (ls.getLastD 0)).dropLast

/-- Result of invoking a `solve` closure. -/
inductive SolveResult
  | ok
  | linkRefInvalid
  | panicked
deriving DecidableEq, Repr

/-- The `solve` closure built by `LinkStateTable::assign` for link `lid` of
    host `host`: upgrade the weak reference (alive iff the heap still holds the
    id), run `deacitve`; on `Some(task)` submit the resume task (the scheduler
    is outside these claims: no reset intervenes), on `None` swap-remove the
    link from its bond and, when the bond empties, remove the bond from the
    table; the evicted link's last strong reference drops with it. -/
def solveStep (st : TableState) (host lid : Nat) : TableState × SolveResult :=
  match List.lookup lid st.heap with
  | none => (st, .linkRefInvalid)
  | some l =>
    let p := deacitve l
    match p.2 with
    | .panicked => (st, .panicked)
    | .resume _ =>
      ({ st with heap := st.heap.map fun e => if e.1 = lid then (e.1, p.1) else e }, .ok)
    | .evict =>
      let bonds2 := st.bonds.map fun e => if e.1 = host then (e.1, removeSwap e.2 lid) else e
      let needRemove := match List.lookup host bonds2 with
        | some ls => ls.isEmpty
        | none => false
      let bonds3 := if needRemove then bonds2.filter (fun e => ¬ e.1 = host) else bonds2
      (⟨bonds3, st.heap.filter fun e => ¬ e.1 = lid⟩, .ok)

/-- `k` consecutive `solve` invocations for the same host and link. -/
def solveN (st : TableState) (host lid : Nat) : Nat → TableState
  | 0 => st
  | k + 1 => (solveStep (solveN st host lid k) host lid).1

/-! ### Support lemmas -/

theorem length_takeWhile_eq {α : Type} (p : α → Bool) (d : α) (l : List α) (k : Nat)
    (hk : k ≤ l.length)
    (h1 : ∀ j, j < k → p (l.getD j d) = true)
    (h2 : k < l.length → p (l.getD k d) = false) :
    (l.takeWhile p).length = k := by
  induction l generalizing k with
  | nil =>
    simp only [List.length_nil, Nat.le_zero] at hk
    simp [hk]
  | cons a t ih =>
    cases k with
    | zero =>
      have hpa := h2 (by simp)
      simp only [List.getD_cons_zero] at hpa
      simp [List.takeWhile_cons, hpa]
    | succ k =>
      have hpa := h1 0 (Nat.succ_pos _)
      simp only [List.getD_cons_zero] at hpa
      simp only [List.takeWhile_cons, hpa, if_true, List.length_cons]
      congr 1
      apply ih
      · simpa using hk
      · intro j hj
        have := h1 (j + 1) (by omega)
        simpa using this
      · intro hlt
        have := h2 (by simpa using hlt)
        simpa using this

theorem sorted_getD_lt {l : List Nat} (hs : l.Sorted (· < ·)) {i j : Nat}
    (hij : i < j) (hj : j < l.length) : l.getD i 0 < l.getD j 0 := by
  rw [List.getD_eq_getElem l 0 (lt_trans hij hj), List.getD_eq_getElem l 0 hj]
  exact List.Sorted.get_strictMono hs (by exact hij)

/-- Loop invariant of the branchless binary search: on a strictly sorted list,
    starting from a window whose left border satisfies the lower invariant
    (`base = 0` or `l[base] ≤ t`) and whose right border satisfies the upper
    invariant (everything at or beyond it exceeds `t`), the final `base` again
    satisfies both with a window of width one. -/
theorem bsGo_spec (l : List Nat) (t : Nat) (hs : l.Sorted (· < ·)) :
    ∀ fuel size base, 0 < size → size ≤ fuel → base + size ≤ l.length →
      (base = 0 ∨ l.getD base 0 ≤ t) →
      (∀ j, base + size ≤ j → j < l.length → t < l.getD j 0) →
      ((bsGo l t fuel base size = 0 ∨ l.getD (bsGo l t fuel base size) 0 ≤ t) ∧
        (∀ j, bsGo l t fuel base size + 1 ≤ j → j < l.length → t < l.getD j 0) ∧
        bsGo l t fuel base size < l.length) := by
  intro fuel
  induction fuel with
  | zero => intro size base h0 hf; omega
  | succ fuel ih =>
    intro size base h0 hf hlen hlo hup
    by_cases hsz : size ≤ 1
    · have hsz1 : size = 1 := by omega
      simp only [bsGo, hsz, if_true]
      exact ⟨hlo, fun j hj => hup j (by omega), by omega⟩
    · have h2 : 2 ≤ size := by omega
      have hhalf : 1 ≤ size / 2 := by omega
      have hhalf2 : size / 2 ≤ size - size / 2 := by omega
      simp only [bsGo, hsz, if_false]
      by_cases hcmp : t < l.getD (base + size / 2) 0
      · simp only [hcmp, if_true]
        apply ih (size - size / 2) base (by omega) (by omega) (by omega) hlo
        intro j hj hjlen
        rcases Nat.lt_or_ge (base + size / 2) j with hgt | hge
        · exact lt_trans hcmp (sorted_getD_lt hs hgt hjlen)
        · have : j = base + size / 2 := by omega
          rw [this]; exact hcmp
      · simp only [hcmp, if_false]
        apply ih (size - size / 2) (base + size / 2) (by omega) (by omega) (by omega)
        · exact Or.inr (by omega)
        · intro j hj hjlen
          exact hup j (by omega) hjlen

/-! ### C6 -/

/-- C6 counterexample: with prefix weights `[2, 5]` and draw `r = 2` (which
    equals the first prefix sum exactly), the binary search finds the probe
    equal to `r` and `unwrap_or_else` keeps `Ok(0)`, so the code selects index
    0 — but the smallest index whose prefix sum is strictly greater than `r`
    (the claim's rule) is 1. -/
theorem C6_counterexample :
    selectedIndex [2, 5] 2 = 0 ∧ specSmallestIdxGt [2, 5] 2 = 1 ∧
      selectedIndex [2, 5] 2 ≠ specSmallestIdxGt [2, 5] 2 := by
  decide

/-- C6 (amended): over a non-empty, strictly increasing prefix-weight vector
    (all candidate weights positive), the selected index is the smallest index
    `i` with `prefix_weights[i] ≥ r`, i.e. the number of prefix sums strictly
    below `r` — so candidate `i` is selected exactly when `r` falls in the
    half-open interval `(prefix[i-1], prefix[i]]`; when `r` equals a prefix sum
    exactly, the binary search returns that index itself, one lower than the
    claim's "smallest index whose prefix sum is > r". -/
theorem C6_selected_index (l : List Nat) (r : Nat) (hl : 0 < l.length)
    (hs : l.Sorted (· < ·)) :
    selectedIndex l r = (l.takeWhile (fun x => decide (x < r))).length := by
  have hspec := bsGo_spec l r hs l.length l.length 0 hl (le_refl _) (by omega)
    (Or.inl rfl) (fun j hj hjl => absurd hjl (by omega))
  set B := bsGo l r l.length 0 l.length with hB
  obtain ⟨hlo, hup, hBlen⟩ := hspec
  unfold selectedIndex binarySearch
  rw [if_neg (by omega)]
  simp only [← hB]
  rcases lt_trichotomy (l.getD B 0) r with hc | hc | hc
  · rw [if_neg (by omega), if_pos hc]
    symm
    apply length_takeWhile_eq _ 0 _ (B + 1) (by omega)
    · intro j hj
      rcases Nat.lt_or_ge j B with hjB | hjB
      · simpa using lt_trans (sorted_getD_lt hs hjB hBlen) hc
      · have : j = B := by omega
        simpa [this] using hc
    · intro hlt
      have := hup (B + 1) (le_refl _) hlt
      simp only [decide_eq_false_iff_not]
      omega
  · rw [if_pos hc]
    symm
    apply length_takeWhile_eq _ 0 _ B (by omega)
    · intro j hj
      simpa using lt_of_lt_of_le (sorted_getD_lt hs hj hBlen) (le_of_eq hc)
    · intro _
      simp only [decide_eq_false_iff_not]
      omega
  · have hB0 : B = 0 := by rcases hlo with h | h; exact h; omega
    rw [if_neg (by omega), if_neg (by omega)]
    have hlen0 : (l.takeWhile (fun x => decide (x < r))).length = 0 := by
      apply length_takeWhile_eq _ 0 _ 0 (by omega)
      · intro j hj; omega
      · intro _
        rw [hB0] at hc
        simp only [decide_eq_false_iff_not]
        omega
    rw [hlen0]
    show B + 0 = 0
    omega

/-- C6 witness: the amended statement evaluated on the concrete prefix-weight
    vector `[2, 5]` with draw `r = 3`. -/
theorem C6_witness :
    selectedIndex [2, 5] 3 = ([2, 5].takeWhile (fun x => decide (x < 3))).length ∧
      selectedIndex [2, 5] 3 = 1 :=
  ⟨C6_selected_index [2, 5] 3 (by decide) (by decide), by decide⟩

/-! ### C5 -/

theorem foldl_add_weight (init : Nat) (cands : List (Nat × LinkState)) :
    cands.foldl (fun acc c => acc + c.2.weight) init
      = init + (cands.map fun c => c.2.weight).sum := by
  induction cands generalizing init with
  | nil => simp
  | cons c t ih => simp [List.foldl_cons, ih, Nat.add_assoc]

/-- C5 counterexample: a bond holding one healthy link of metric 1_000_000 —
    whose weight `1_000_000 / (1_000_000 + 1)` truncates to 0 — makes `assign`
    return `LinksNotFound` even though a healthy link exists, refuting both
    directions of the claim ("healthy link ⇒ Ok" and "LinksNotFound only when
    every link is unhealthy"). -/
theorem C5_counterexample :
    (LinkState.new 1 2 1000000).isHealthy = true ∧
      (LinkState.new 1 2 1000000).weight = 0 ∧
      assignT ⟨[(7, [0])], [(0, LinkState.new 1 2 1000000)]⟩ 7 (fun _ => 0)
        = .error .LinksNotFound :=
  ⟨rfl, rfl, rfl⟩

/-- C5 (amended): given the host's bond, `assign` returns `Ok` whenever some
    healthy link has nonzero weight, and returns `LinksNotFound` exactly when
    the healthy candidates' total weight is zero (in particular when there is
    no healthy link, but also when every healthy link has metric ≥ 1_000_000);
    `weight(link) = 1_000_000 / (metric + 1)` is positive iff
    `metric < 1_000_000`. -/
theorem C5_assign_totality (st : TableState) (host : Nat) (draw : Nat → Nat)
    (lids : List Nat) (hb : List.lookup host st.bonds = some lids) :
    ((∃ c ∈ healthyCands st lids, 0 < c.2.weight) →
        ∃ i, assignT st host draw = .ok i) ∧
      (assignT st host draw = .error .LinksNotFound ↔
        totalWeightOf (healthyCands st lids) = 0) ∧
      (∀ l : LinkState, 0 < l.weight ↔ l.metric < 1000000) := by
  have hw : ∀ l : LinkState, 0 < l.weight ↔ l.metric < 1000000 := by
    intro l
    unfold LinkState.weight
    rw [Nat.div_pos_iff (by omega : l.metric + 1 ≠ 0)]
    omega
  have hEmpTot : (healthyCands st lids).isEmpty = true →
      totalWeightOf (healthyCands st lids) = 0 := by
    intro h
    rw [List.isEmpty_iff] at h
    rw [h]
    rfl
  refine ⟨?_, ?_, hw⟩
  · rintro ⟨c, hc, hcw⟩
    have htot : 0 < totalWeightOf (healthyCands st lids) := by
      unfold totalWeightOf
      rw [foldl_add_weight]
      have hmem : c.2.weight ∈ (healthyCands st lids).map fun c => c.2.weight :=
        List.mem_map_of_mem _ hc
      have := List.single_le_sum (fun x _ => Nat.zero_le x) _ hmem
      omega
    simp only [assignT, hb]
    rw [if_neg]
    · exact ⟨_, rfl⟩
    · rintro (h | h)
      · exact absurd (hEmpTot h) (by omega)
      · omega
  · simp only [assignT, hb]
    by_cases hcond : (healthyCands st lids).isEmpty = true ∨
        totalWeightOf (healthyCands st lids) = 0
    · rw [if_pos hcond]
      constructor
      · intro _
        rcases hcond with h | h
        · exact hEmpTot h
        · exact h
      · intro _
        rfl
    · rw [if_neg hcond]
      constructor
      · intro h
        exact Except.noConfusion h
      · intro h
        exact absurd (Or.inr h) hcond

/-- C5 witness: a bond with one healthy link of metric 100 yields an
    assignment. -/
theorem C5_witness :
    ∃ i, assignT ⟨[(7, [0])], [(0, LinkState.new 1 2 100)]⟩ 7 (fun _ => 0) = .ok i :=
  (C5_assign_totality ⟨[(7, [0])], [(0, LinkState.new 1 2 100)]⟩ 7 (fun _ => 0) [0]
      (by decide)).1 (by decide)

/-! ### C4 -/

theorem iterDeacitve_count (a b m : Nat) :
    ∀ k, (iterDeacitve (LinkState.new a b m) k).failureCount = k % 256 := by
  intro k
  induction k with
  | zero => rfl
  | succ k ih =>
    show ((iterDeacitve (LinkState.new a b m) k).failureCount + 1) % 256 = (k + 1) % 256
    rw [ih]
    omega

theorem deacitve_out_evict (l : LinkState) (h : 4 ≤ (l.failureCount + 1) % 256) :
    (deacitve l).2 = .evict := by
  show (match (l.failureCount + 1) % 256 with
    | 0 => DeacitveOut.panicked
    | 1 => .resume 5
    | 2 => .resume 30
    | 3 => .resume 60
    | _ => .evict) = .evict
  obtain ⟨n, hn⟩ := Nat.exists_eq_add_of_le h
  rw [Nat.add_comm 4 n] at hn
  rw [hn]
  rfl

/-- C4 counterexample: `deacitve` increments `failure_count` with a wrapping
    `fetch_add`, not a saturating one, and never clamps it at 4: after 5
    consecutive invocations on a fresh link the counter reads 5, not
    min(5, 4) = 4 as the claim states. -/
theorem C4_counterexample :
    (iterDeacitve (LinkState.new 1 2 100) 5).failureCount = 5 ∧
      min 5 4 = 4 ∧
      (iterDeacitve (LinkState.new 1 2 100) 5).failureCount ≠ min 5 4 := by
  decide

/-- C4 (amended): after `k` consecutive `deacitve` invocations on a fresh link
    (no intervening reset, `1 ≤ k ≤ 255` so the `u8` counter has not wrapped),
    `failure_count` equals `k` — it equals `min(k, 4)` only for `k ≤ 4` — and
    the link is unhealthy; the `k`-th invocation yields a resume task for
    `k ≤ 3` and no task (eviction) for `k ≥ 4`; in the table, the 4th `solve`
    on a single-link bond removes the link, the emptied bond is removed, and a
    subsequent `assign` for that host returns `BondNotFound`. -/
theorem C4_escalation (a b m k : Nat) (hk1 : 1 ≤ k) (hk : k ≤ 255) :
    (iterDeacitve (LinkState.new a b m) k).failureCount = k ∧
      (iterDeacitve (LinkState.new a b m) k).isHealthy = false ∧
      (k ≤ 3 → ∃ d,
        (deacitve (iterDeacitve (LinkState.new a b m) (k - 1))).2 = .resume d) ∧
      (4 ≤ k → (deacitve (iterDeacitve (LinkState.new a b m) (k - 1))).2 = .evict) ∧
      (solveN ⟨[(7, [0])], [(0, LinkState.new a b m)]⟩ 7 0 4).bonds = [] ∧
      assignT (solveN ⟨[(7, [0])], [(0, LinkState.new a b m)]⟩ 7 0 4) 7 (fun _ => 0)
        = .error .BondNotFound := by
  refine ⟨?_, ?_, ?_, ?_, rfl, rfl⟩
  · rw [iterDeacitve_count]
    omega
  · obtain ⟨j, rfl⟩ : ∃ j, k = j + 1 := ⟨k - 1, by omega⟩
    rfl
  · intro h3
    interval_cases k
    · exact ⟨5, rfl⟩
    · exact ⟨30, rfl⟩
    · exact ⟨60, rfl⟩
  · intro h4
    apply deacitve_out_evict
    rw [iterDeacitve_count]
    omega

/-- C4 witness: the amended statement evaluated at `k = 4` on a fresh link of
    metric 100. -/
theorem C4_witness :
    (iterDeacitve (LinkState.new 1 2 100) 4).failureCount = 4 ∧
      (iterDeacitve (LinkState.new 1 2 100) 4).isHealthy = false ∧
      (4 ≤ 3 → ∃ d,
        (deacitve (iterDeacitve (LinkState.new 1 2 100) (4 - 1))).2 = .resume d) ∧
      (4 ≤ 4 → (deacitve (iterDeacitve (LinkState.new 1 2 100) (4 - 1))).2 = .evict) ∧
      (solveN ⟨[(7, [0])], [(0, LinkState.new 1 2 100)]⟩ 7 0 4).bonds = [] ∧
      assignT (solveN ⟨[(7, [0])], [(0, LinkState.new 1 2 100)]⟩ 7 0 4) 7 (fun _ => 0)
        = .error .BondNotFound :=
  C4_escalation 1 2 100 4 (by decide) (by decide)

/-! ### HotFile (src/hot_file/hot_file.rs)

State: the dirty map `BTreeMap<FileRange, Bytes>` (association list sorted by
the derived key order, `start` then `end`), the on-disk file contents, and the
`sync_len_state` atomic.  Disk I/O never fails in this sequential model; `sync`
reports the ordered list of disk operations it performs, so frame claims about
"no disk access" are statable. -/

/-- `HotFileError` (the `FileRangeError` variant records the offending pair). -/
inductive HotFileError
  | fileRange (start stop : Nat)
  | ioError
  | outOfFile
deriving DecidableEq, Repr

abbrev DirtyMap := List (FileRange × List Nat)

structure HotFileState where
  dirty : DirtyMap
  disk : List Nat
  syncLenState : Nat
deriving DecidableEq, Repr

/-- The `Ord`-derived BTreeMap key order on `FileRange`: `start`, then `end`. -/
def FileRange.keyLt (a b : FileRange) : Prop :=
  a.start < b.start ∨ (a.start = b.start ∧ a.stop < b.stop)

instance (a b : FileRange) : Decidable (FileRange.keyLt a b) :=
  inferInstanceAs (Decidable (_ ∨ _))

/-- `BTreeMap::insert`: place the entry at its key position, replacing an
    entry with an equal key. -/
def dirtyInsert (x : FileRange × List Nat) : DirtyMap → DirtyMap
  | [] => [x]
  | e :: es =>
    if FileRange.keyLt x.1 e.1 then x :: e :: es
    else if x.1 = e.1 then x :: es
    else e :: dirtyInsert x es

/-- `copy_from_slice` of `src` into `dst` at `pos` (every caller guarantees
    `pos + src.length ≤ dst.length`). -/
def copyAt (dst : List Nat) (pos : Nat) (src : List Nat) : List Nat :=
  dst.take pos ++ src ++ dst.drop (pos + src.length)

/-- `HotFile::write(buf, offset)`.  The BTree range scan
    `(Unbounded, Included((buf_rgn.end, usize::MAX)))` enumerates every key with
    `start ≤ buf_rgn.end` and the subsequent filter keeps only keys that
    strictly intersect `buf_rgn` (`intersect` demands `start < end`); since
    strict intersection already implies `start < buf_rgn.end`, the scan bound
    is subsumed by the filter.  The `usize` subtractions
    `rgn.start - merged_start` and `offset - merged_start` never underflow:
    `merged_start` is a fold of `min` over exactly those values. -/
def HotFile.write (st : HotFileState) (buf : List Nat) (offset : Nat) :
    Except HotFileError HotFileState :=
  match FileRange.tryNew offset (offset + buf.length) with
  | none => .error (.fileRange offset (offset + buf.length))
  | some bufRgn =>
    let overlapped := st.dirty.filter fun e => (e.1.intersect bufRgn).isSome
    let mergedStart := overlapped.foldl (fun acc e => min acc e.1.start) bufRgn.start
    let mergedEnd := overlapped.foldl (fun acc e => max acc e.1.stop) bufRgn.stop
    let mergedRgn : FileRange := ⟨mergedStart, mergedEnd⟩
    let base := List.replicate (mergedEnd - mergedStart) 0
    let withOld := overlapped.foldl
      (fun acc e => copyAt acc (e.1.start - mergedStart) e.2) base
    let mergedBuf := copyAt withOld (offset - mergedStart) buf
    let kept := st.dirty.filter fun e => !(e.1.intersect bufRgn).isSome
    .ok { dirty := dirtyInsert (mergedRgn, mergedBuf) kept,
          disk := st.disk,
          syncLenState := max st.syncLenState mergedEnd }

/-- A disk operation issued by `sync`, in order: `set_len`, a seek-plus-
    `write_all` per snapshotted range, and the final durable `sync_all`. -/
inductive DiskOp
  | setLen (n : Nat)
  | writeRange (r : FileRange) (buf : List Nat)
  | syncAll
deriving DecidableEq, Repr

/-- `seek(Start(pos))` followed by `write_all(buf)`: pads with zeros when the
    seek is past EOF (cannot occur after the `set_len` step; the model is
    total). -/
def diskWrite (d : List Nat) (pos : Nat) (buf : List Nat) : List Nat :=
  let d2 := if d.length < pos then d ++ List.replicate (pos - d.length) 0 else d
  d2.take pos ++ buf ++ d2.drop (pos + buf.length)

/-- `HotFile::sync`: if the dirty map is empty return `Ok` immediately — before
    reading `sync_len_state`, before touching the disk mutex — otherwise
    snapshot the dirty entries and `target_len`, extend the file with zeros to
    `target_len` when shorter, write every snapshotted range, flush durably,
    and remove exactly the snapshotted keys.  The second component lists the
    disk operations performed. -/
def HotFile.sync (st : HotFileState) : HotFileState × List DiskOp :=
  if st.dirty.isEmpty then (st, [])
  else
    let targetLen := st.syncLenState
    let snapshot := st.dirty
    let extend := st.disk.length < targetLen
    let disk1 :=
      if extend then st.disk ++ List.replicate (targetLen - st.disk.length) 0 else st.disk
    let ops1 := if extend then [DiskOp.setLen targetLen] else []
    let disk2 := snapshot.foldl (fun d e => diskWrite d e.1.start e.2) disk1
    let dirty2 := st.dirty.filter fun e => ¬ (snapshot.map (fun s => s.1)).contains e.1
    (⟨dirty2, disk2, st.syncLenState⟩,
      ops1 ++ snapshot.map (fun e => DiskOp.writeRange e.1 e.2) ++ [DiskOp.syncAll])

/-! ### C10 -/

/-- C10: when the dirty map is empty, `sync` returns `Ok` immediately with the
    state untouched and performs no disk operation at all — in particular the
    file is not extended to `sync_len_state` even when that exceeds the on-disk
    length (the extend step lives behind the early return). -/
theorem C10_sync_empty_noop (st : HotFileState) (h : st.dirty = []) :
    HotFile.sync st = (st, []) := by
  unfold HotFile.sync
  rw [if_pos]
  rw [h]
  rfl

/-- C10 witness: a state whose `sync_len_state` (7) exceeds the on-disk length
    (2) but whose dirty map is empty: `sync` leaves the 2-byte file alone. -/
theorem C10_witness :
    HotFile.sync ⟨[], [10, 20], 7⟩ = (⟨[], [10, 20], 7⟩, []) :=
  C10_sync_empty_noop ⟨[], [10, 20], 7⟩ rfl

/-! ### C9 -/

/-- C9 counterexample: `write` with an empty buffer does not return
    successfully: `FileRange::try_new(offset, offset + 0)` fails `start < end`
    and `write` propagates `InvalidRange` instead of being an `Ok` no-op. -/
theorem C9_counterexample :
    HotFile.write ⟨[], [], 0⟩ [] 0 = .error (.fileRange 0 0) ∧
      ¬ ∃ st2, HotFile.write ⟨[], [], 0⟩ [] 0 = .ok st2 := by
  refine ⟨rfl, ?_⟩
  rintro ⟨st2, h⟩
  rw [show HotFile.write ⟨[], [], 0⟩ [] 0 = .error (.fileRange 0 0) from rfl] at h
  exact Except.noConfusion h

/-- C9 (amended): for every state and offset, `write` with an empty buffer
    returns the `InvalidRange{offset, offset}` error — raised by
    `FileRange::try_new` before any mutation, so the dirty map and
    `sync_len_state` are untouched — rather than succeeding. -/
theorem C9_empty_write (st : HotFileState) (offset : Nat) :
    HotFile.write st [] offset = .error (.fileRange offset (offset + 0)) := by
  unfold HotFile.write FileRange.tryNew
  simp

/-! ### C2 -/

def DirtyInv (d : DirtyMap) : Prop :=
  d.Pairwise (fun a b => a.1.stop ≤ b.1.start) ∧ ∀ e ∈ d, e.1.start < e.1.stop

theorem mem_dirtyInsert {x y : FileRange × List Nat} {l : DirtyMap}
    (h : y ∈ dirtyInsert x l) : y = x ∨ y ∈ l := by
  induction l with
  | nil => simpa [dirtyInsert] using h
  | cons e es ih =>
    unfold dirtyInsert at h
    by_cases h1 : FileRange.keyLt x.1 e.1
    · rw [if_pos h1] at h
      rcases List.mem_cons.mp h with h | h
      · exact Or.inl h
      · exact Or.inr h
    · rw [if_neg h1] at h
      by_cases h2 : x.1 = e.1
      · rw [if_pos h2] at h
        rcases List.mem_cons.mp h with h | h
        · exact Or.inl h
        · exact Or.inr (List.mem_cons_of_mem _ h)
      · rw [if_neg h2] at h
        rcases List.mem_cons.mp h with h | h
        · subst h
          exact Or.inr (List.mem_cons_self _ _)
        · rcases ih h with h | h
          · exact Or.inl h
          · exact Or.inr (List.mem_cons_of_mem _ h)

theorem pairwise_mem_rel {α : Type} {R : α → α → Prop} {l : List α} {a b : α}
    (hp : l.Pairwise R) (ha : a ∈ l) (hb : b ∈ l) : a = b ∨ R a b ∨ R b a := by
  induction l with
  | nil => cases ha
  | cons e es ih =>
    rcases List.pairwise_cons.mp hp with ⟨he, hes⟩
    rcases List.mem_cons.mp ha with rfl | ha2
    · rcases List.mem_cons.mp hb with rfl | hb2
      · exact Or.inl rfl
      · exact Or.inr (Or.inl (he _ hb2))
    · rcases List.mem_cons.mp hb with rfl | hb2
      · exact Or.inr (Or.inr (he _ ha2))
      · exact ih hes ha2 hb2

/-- Inserting an entry disjoint from (and valid like) every member of a
    pairwise-disjoint list keeps the list pairwise disjoint. -/
theorem dirtyInsert_pairwise {x : FileRange × List Nat} {l : DirtyMap}
    (hp : l.Pairwise (fun a b => a.1.stop ≤ b.1.start))
    (hval : ∀ e ∈ l, e.1.start < e.1.stop)
    (hxval : x.1.start < x.1.stop)
    (hd : ∀ e ∈ l, e.1.stop ≤ x.1.start ∨ x.1.stop ≤ e.1.start) :
    (dirtyInsert x l).Pairwise (fun a b => a.1.stop ≤ b.1.start) := by
  induction l with
  | nil => simp [dirtyInsert]
  | cons e es ih =>
    rcases List.pairwise_cons.mp hp with ⟨he, hes⟩
    have hde := hd e (List.mem_cons_self _ _)
    have hev := hval e (List.mem_cons_self _ _)
    unfold dirtyInsert
    by_cases h1 : FileRange.keyLt x.1 e.1
    · rw [if_pos h1]
      have hxe : x.1.stop ≤ e.1.start := by
        rcases hde with h | h
        · unfold FileRange.keyLt at h1
          omega
        · exact h
      refine List.pairwise_cons.mpr ⟨?_, hp⟩
      intro y hy
      rcases List.mem_cons.mp hy with rfl | hy2
      · exact hxe
      · exact le_trans hxe (le_trans (le_of_lt hev) (he y hy2))
    · rw [if_neg h1]
      by_cases h2 : x.1 = e.1
      · exfalso
        rcases hde with h | h <;> rw [h2] at * <;> omega
      · rw [if_neg h2]
        have hex : e.1.stop ≤ x.1.start := by
          rcases hde with h | h
          · exact h
          · exfalso
            apply h1
            unfold FileRange.keyLt
            omega
        refine List.pairwise_cons.mpr ⟨?_, ?_⟩
        · intro y hy
          rcases mem_dirtyInsert hy with rfl | hy2
          · exact hex
          · exact he y hy2
        · exact ih hes (fun a ha => hval a (List.mem_cons_of_mem _ ha))
            (fun a ha => hd a (List.mem_cons_of_mem _ ha))

theorem foldl_min_le_init (init : Nat) (l : DirtyMap) :
    l.foldl (fun acc e => min acc e.1.start) init ≤ init := by
  induction l generalizing init with
  | nil => simp
  | cons e es ih =>
    exact le_trans (ih _) (min_le_left _ _)

theorem le_foldl_min {c init : Nat} {l : DirtyMap} (hi : c ≤ init)
    (hl : ∀ e ∈ l, c ≤ e.1.start) :
    c ≤ l.foldl (fun acc e => min acc e.1.start) init := by
  induction l generalizing init with
  | nil => simpa
  | cons e es ih =>
    apply ih
    · exact le_min hi (hl e (List.mem_cons_self _ _))
    · exact fun a ha => hl a (List.mem_cons_of_mem _ ha)

theorem init_le_foldl_max (init : Nat) (l : DirtyMap) :
    init ≤ l.foldl (fun acc e => max acc e.1.stop) init := by
  induction l generalizing init with
  | nil => simp
  | cons e es ih =>
    exact le_trans (le_max_left _ _) (ih _)

theorem foldl_max_le {c init : Nat} {l : DirtyMap} (hi : init ≤ c)
    (hl : ∀ e ∈ l, e.1.stop ≤ c) :
    l.foldl (fun acc e => max acc e.1.stop) init ≤ c := by
  induction l generalizing init with
  | nil => simpa
  | cons e es ih =>
    apply ih
    · exact max_le hi (hl e (List.mem_cons_self _ _))
    · exact fun a ha => hl a (List.mem_cons_of_mem _ ha)

theorem intersect_isSome_iff (a b : FileRange) :
    (a.intersect b).isSome = true ↔ max a.start b.start < min a.stop b.stop := by
  unfold FileRange.intersect
  by_cases h : max a.start b.start < min a.stop b.stop
  · simp [h]
  · simp [h]

theorem tryNew_some {s t : Nat} {r : FileRange}
    (h : FileRange.tryNew s t = some r) : r.start = s ∧ r.stop = t ∧ s < t := by
  unfold FileRange.tryNew at h
  by_cases hlt : s < t
  · rw [if_pos hlt] at h
    cases h
    exact ⟨rfl, rfl, hlt⟩
  · rw [if_neg hlt] at h
    exact Option.noConfusion h

theorem write_ok_inv (st : HotFileState) (buf : List Nat) (off : Nat)
    (h : DirtyInv st.dirty) (st2 : HotFileState)
    (hw : HotFile.write st buf off = .ok st2) : DirtyInv st2.dirty := by
  obtain ⟨hp, hv⟩ := h
  unfold HotFile.write at hw
  cases htry : FileRange.tryNew off (off + buf.length) with
  | none => rw [htry] at hw; exact Except.noConfusion hw
  | some bufRgn =>
    rw [htry] at hw
    obtain ⟨hbs, hbe, hblt⟩ := tryNew_some htry
    have hbval : bufRgn.start < bufRgn.stop := by omega
    simp only [Except.ok.injEq] at hw
    subst hw
    simp only
    set ovl := st.dirty.filter (fun e => (e.1.intersect bufRgn).isSome) with hovl
    set kept := st.dirty.filter (fun e => !(e.1.intersect bufRgn).isSome) with hkept
    set mS := ovl.foldl (fun acc e => min acc e.1.start) bufRgn.start with hmS
    set mE := ovl.foldl (fun acc e => max acc e.1.stop) bufRgn.stop with hmE
    -- facts about members
    have hovl_mem : ∀ o ∈ ovl, o ∈ st.dirty ∧
        max o.1.start bufRgn.start < min o.1.stop bufRgn.stop := by
      intro o ho
      rw [hovl, List.mem_filter] at ho
      exact ⟨ho.1, (intersect_isSome_iff _ _).mp ho.2⟩
    have hkept_mem : ∀ e ∈ kept, e ∈ st.dirty ∧
        ¬ max e.1.start bufRgn.start < min e.1.stop bufRgn.stop := by
      intro e he
      rw [hkept, List.mem_filter] at he
      refine ⟨he.1, ?_⟩
      intro hcon
      have := (intersect_isSome_iff e.1 bufRgn).mpr hcon
      rw [this] at he
      simp at he
    have hmSle : mS ≤ bufRgn.start := foldl_min_le_init _ _
    have hmEge : bufRgn.stop ≤ mE := init_le_foldl_max _ _
    have hxval : mS < mE := by omega
    constructor
    · apply dirtyInsert_pairwise
      · exact List.Pairwise.sublist (List.filter_sublist _) hp
      · intro e he
        exact hv e (hkept_mem e he).1
      · exact hxval
      · -- disjointness of every kept entry from the merged range
        intro e he
        obtain ⟨hed, hni⟩ := hkept_mem e he
        have hev := hv e hed
        rcases Nat.lt_or_ge e.1.start bufRgn.stop with hlt2 | hge2
        · -- then e.stop ≤ bufRgn.start (no strict intersection)
          have heb : e.1.stop ≤ bufRgn.start := by omega
          left
          rw [hmS]
          apply le_foldl_min heb
          intro o ho
          obtain ⟨hod, hoi⟩ := hovl_mem o ho
          have hov := hv o hod
          rcases pairwise_mem_rel hp hed hod with rfl | hr | hr
          · omega
          · exact hr
          · omega
        · -- bufRgn.stop ≤ e.start
          right
          rw [hmE]
          apply foldl_max_le hge2
          intro o ho
          obtain ⟨hod, hoi⟩ := hovl_mem o ho
          have hov := hv o hod
          rcases pairwise_mem_rel hp hed hod with rfl | hr | hr
          · omega
          · omega
          · exact hr
    · intro y hy
      rcases mem_dirtyInsert hy with rfl | hy2
      · exact hxval
      · exact hv y (hkept_mem y hy2).1

def writeOps (st : HotFileState) : List (List Nat × Nat) → HotFileState
  | [] => st
  | (buf, off) :: rest =>
    match HotFile.write st buf off with
    | .ok st2 => writeOps st2 rest
    | .error _ => writeOps st rest

theorem writeOps_inv (st : HotFileState) (h : DirtyInv st.dirty)
    (ops : List (List Nat × Nat)) : DirtyInv (writeOps st ops).dirty := by
  induction ops generalizing st with
  | nil => exact h
  | cons op rest ih =>
    obtain ⟨buf, off⟩ := op
    unfold writeOps
    cases hw : HotFile.write st buf off with
    | ok st2 => exact ih st2 (write_ok_inv st buf off h st2 hw)
    | error e => exact ih st h

/-- C2 counterexample: writing `[0,5)` then `[5,10)` (5 bytes at offsets 0 and
    5) leaves TWO adjacent dirty entries, not the single `[0,10)` entry the
    claim predicts: `write` filters with strict `intersect`, so touching
    entries are never collected or merged. -/
theorem C2_counterexample :
    (HotFile.write ⟨[], [], 0⟩ (List.replicate 5 1) 0).bind
        (fun st1 => HotFile.write st1 (List.replicate 5 2) 5)
      = .ok ⟨[(⟨0, 5⟩, List.replicate 5 1), (⟨5, 10⟩, List.replicate 5 2)], [], 10⟩ ∧
      [(⟨0, 5⟩, List.replicate 5 1), ((⟨5, 10⟩ : FileRange), List.replicate 5 2)].length = 2 ∧
      (⟨0, 5⟩ : FileRange).stop = (⟨5, 10⟩ : FileRange).start :=
  ⟨rfl, rfl, rfl⟩

/-- C2 (amended): under every sequence of `write` operations (failed writes
    leave the state unchanged), the dirty-map keys stay pairwise
    non-overlapping — for any two keys `R1` before `R2`, `R1.end ≤ R2.start` —
    and every key is a valid non-empty range; `write` collects exactly the
    entries that STRICTLY overlap the written range `W` and replaces them with
    one merged entry, but entries merely touching `W` at either end are kept,
    so adjacent keys (`R1.end = R2.start`) can remain. -/
theorem C2_dirty_invariant (st : HotFileState) (h : DirtyInv st.dirty)
    (ops : List (List Nat × Nat)) :
    ((writeOps st ops).dirty.Pairwise fun a b => a.1.stop ≤ b.1.start) ∧
      ∀ e ∈ (writeOps st ops).dirty, e.1.start < e.1.stop :=
  writeOps_inv st h ops

/-- C2 witness: the amended invariant evaluated over the two adjacent writes of
    the counterexample, starting from the empty cache. -/
theorem C2_witness :
    (((writeOps ⟨[], [], 0⟩ [(List.replicate 5 1, 0), (List.replicate 5 2, 5)]).dirty.Pairwise
        fun a b => a.1.stop ≤ b.1.start) ∧
      ∀ e ∈ (writeOps ⟨[], [], 0⟩ [(List.replicate 5 1, 0), (List.replicate 5 2, 5)]).dirty,
        e.1.start < e.1.stop) ∧
      (writeOps ⟨[], [], 0⟩ [(List.replicate 5 1, 0), (List.replicate 5 2, 5)]).dirty.length = 2 :=
  ⟨C2_dirty_invariant ⟨[], [], 0⟩ ⟨List.Pairwise.nil, by intro e he; cases he⟩
      [(List.replicate 5 1, 0), (List.replicate 5 2, 5)],
    rfl⟩

/-! ### FileMultiRange (src/hot_file/file_range.rs) -/

/-- Rust `slice::partition_point`: specified only for partitioned slices,
    where it returns the number of leading elements satisfying `p`.  `add`
    invokes it only on canonical states, where both of its predicates are
    partitioned (ends and starts are strictly increasing), so the `takeWhile`
    length is the faithful rendering. -/
def partitionPoint (p : FileRange → Bool) (l : List FileRange) : Nat :=
  (l.takeWhile p).length

/-- `FileMultiRange::add`.  `left` is the first index whose range has
    `end ≥ range.start` (touching merges), `right` the first whose
    `start > range.end`; when `left < right` the slice `inner[left..right]` is
    replaced in place by the single range
    `[min(inner[left].start, range.start), max(inner[right-1].end, range.end))`
    (the pointer arithmetic moves the tail down and shrinks the length),
    otherwise `range` is inserted at `left`.  The Rust empty-case `push` lacks
    a `return`, so the merge logic still runs over the singleton just pushed —
    mirrored here by running the same code on `[range]`. -/
def FileMultiRange.add (inner : List FileRange) (range : FileRange) : List FileRange :=
  let inner := if inner.isEmpty then [range] else inner
  let left := partitionPoint (fun r => decide (r.stop < range.start)) inner
  let right := partitionPoint (fun r => decide (r.start ≤ range.stop)) inner
  if left < right then
    let first := (inner.drop left).headD ⟨0, 0⟩
    let last := (inner.drop (right - 1)).headD ⟨0, 0⟩
    inner.take left
      ++ (⟨min first.start range.start, max last.stop range.stop⟩ : FileRange)
        :: inner.drop right
  else
    inner.take left ++ range :: inner.drop left

/-- All ranges added in order to an initially empty `FileMultiRange`. -/
def addAll (rs : List FileRange) : List FileRange :=
  rs.foldl FileMultiRange.add []

/-- Canonical form (invariants `I-M1` and `I-M2`): every two ranges in list
    order are separated by a positive gap — hence consecutive ones are, and the
    list is sorted by `start` — and every range is non-empty. -/
def Canonical (l : List FileRange) : Prop :=
  l.Pairwise (fun a b => a.stop < b.start) ∧ ∀ r ∈ l, r.start < r.stop

/-- The set of points covered by a range list. -/
def memPts (l : List FileRange) (p : Nat) : Prop :=
  ∃ r ∈ l, r.start ≤ p ∧ p < r.stop

/-! ### C1 -/

theorem takeWhile_append_all {α : Type} {p : α → Bool} {l1 l2 : List α}
    (h : ∀ x ∈ l1, p x = true) :
    (l1 ++ l2).takeWhile p = l1 ++ l2.takeWhile p := by
  induction l1 with
  | nil => simp
  | cons a t ih =>
    rw [List.cons_append, List.takeWhile_cons_of_pos (h a (List.mem_cons_self _ _)),
      ih (fun x hx => h x (List.mem_cons_of_mem _ hx)), List.cons_append]

theorem dropWhile_head_false {α : Type} {p : α → Bool} :
    ∀ {l : List α} {b : α} {bs : List α}, l.dropWhile p = b :: bs → p b = false := by
  intro l
  induction l with
  | nil => intro b bs h; exact List.noConfusion h
  | cons a t ih =>
    intro b bs h
    rw [List.dropWhile_cons] at h
    by_cases hpa : p a = true
    · rw [if_pos hpa] at h
      exact ih h
    · rw [if_neg hpa] at h
      injection h with h1 _
      subst h1
      simp at hpa
      exact hpa


/-- Coverage: a family of ranges each touching-or-overlapping the closed hull
    of `r` covers the hull `[min(head.start, r.start), ·)` together with `r`
    itself up to any member bound. -/
theorem cover_lemma (r : FileRange) (hr : r.start < r.stop) :
    ∀ (ms : List FileRange) (m0 : FileRange),
      (∀ x ∈ m0 :: ms, r.start ≤ x.stop ∧ x.start ≤ r.stop) →
      ∀ p, min m0.start r.start ≤ p →
        (p < r.stop ∨ ∃ x ∈ m0 :: ms, p < x.stop) →
        (∃ x ∈ m0 :: ms, x.start ≤ p ∧ p < x.stop) ∨ (r.start ≤ p ∧ p < r.stop) := by
  intro ms
  induction ms with
  | nil =>
    intro m0 hall p hmin hdisj
    obtain ⟨h1, h2⟩ := hall m0 (by simp)
    rcases Nat.lt_or_ge p m0.start with hlt | hge
    · right
      constructor <;> omega
    · rcases Nat.lt_or_ge p m0.stop with h3 | h3
      · left
        exact ⟨m0, by simp, hge, h3⟩
      · right
        rcases hdisj with h4 | h4
        · omega
        · obtain ⟨x, hx, hpx⟩ := h4
          simp only [List.mem_singleton] at hx
          subst hx
          omega
  | cons m1 rest ih =>
    intro m0 hall p hmin hdisj
    obtain ⟨h1, h2⟩ := hall m0 (by simp)
    rcases Nat.lt_or_ge p m0.stop with h3 | h3
    · rcases Nat.lt_or_ge p m0.start with h4 | h4
      · right
        constructor <;> omega
      · left
        exact ⟨m0, by simp, h4, h3⟩
    · have hdisj2 : p < r.stop ∨ ∃ x ∈ m1 :: rest, p < x.stop := by
        rcases hdisj with h4 | h4
        · exact Or.inl h4
        · obtain ⟨x, hx, hpx⟩ := h4
          rcases List.mem_cons.mp hx with rfl | hx2
          · omega
          · exact Or.inr ⟨x, hx2, hpx⟩
      have := ih m1 (fun x hx => hall x (List.mem_cons_of_mem _ hx)) p (by omega) hdisj2
      rcases this with ⟨x, hx, hxx⟩ | hR
      · left
        exact ⟨x, List.mem_cons_of_mem _ hx, hxx⟩
      · right
        exact hR

theorem add_spec (l : List FileRange) (r : FileRange) (hc : Canonical l)
    (hr : r.start < r.stop) :
    Canonical (FileMultiRange.add l r) ∧
      ∀ p, memPts (FileMultiRange.add l r) p ↔
        memPts l p ∨ (r.start ≤ p ∧ p < r.stop) := by
  obtain ⟨hp, hv⟩ := hc
  cases l with
  | nil =>
    have hadd : FileMultiRange.add [] r = [⟨min r.start r.start, max r.stop r.stop⟩] := by
      unfold FileMultiRange.add partitionPoint
      have h1 : decide (r.stop < r.start) = false := by simp; omega
      have h2 : decide (r.start ≤ r.stop) = true := by simp; omega
      simp [List.takeWhile, h1, h2]
    rw [hadd]
    have hrr : (⟨min r.start r.start, max r.stop r.stop⟩ : FileRange) = r := by
      simp
    rw [hrr]
    refine ⟨⟨List.pairwise_singleton _ _, ?_⟩, ?_⟩
    · intro x hx
      simp only [List.mem_singleton] at hx
      subst hx
      exact hr
    · intro p
      simp [memPts]
  | cons a l' =>
    set l := a :: l' with hldef
    have hlne : l.isEmpty = false := rfl
    set p1 : FileRange → Bool := fun x => decide (x.stop < r.start) with hp1
    set p2 : FileRange → Bool := fun x => decide (x.start ≤ r.stop) with hp2
    set A := l.takeWhile p1 with hA
    set B := l.dropWhile p1 with hB
    have hlAB : l = A ++ B := (List.takeWhile_append_dropWhile p1 l).symm
    have hA_sub : A ⊆ l := (List.takeWhile_sublist p1).subset
    have hB_sub : B ⊆ l := (List.dropWhile_sublist p1).subset
    have hA_mem : ∀ x ∈ A, x.stop < r.start := by
      intro x hx
      have := List.mem_takeWhile_imp hx
      rw [hp1] at this
      simpa using this
    have hpB : B.Pairwise fun a b => a.stop < b.start :=
      List.Pairwise.sublist (List.dropWhile_sublist p1) hp
    have hB_mem : ∀ x ∈ B, r.start ≤ x.stop := by
      cases hBc : B with
      | nil => intro x hx; exact absurd hx (List.not_mem_nil x)
      | cons b0 bs =>
        rw [hBc] at hpB hB_sub
        have hb0 : p1 b0 = false := dropWhile_head_false (hB.symm.trans hBc)
        rw [hp1] at hb0
        simp only [decide_eq_false_iff_not, Nat.not_lt] at hb0
        intro x hx
        rcases List.mem_cons.mp hx with rfl | hx2
        · exact hb0
        · have hrel : b0.stop < x.start := (List.pairwise_cons.mp hpB).1 x hx2
          have hxv : x.start < x.stop := hv x (hB_sub hx)
          omega
    set M := B.takeWhile p2 with hM
    set D := B.dropWhile p2 with hD
    have hBMD : B = M ++ D := (List.takeWhile_append_dropWhile p2 B).symm
    have hM_subB : M ⊆ B := (List.takeWhile_sublist p2).subset
    have hD_subB : D ⊆ B := (List.dropWhile_sublist p2).subset
    have hM_mem : ∀ x ∈ M, x.start ≤ r.stop := by
      intro x hx
      have := List.mem_takeWhile_imp hx
      rw [hp2] at this
      simpa using this
    have hpD : D.Pairwise fun a b => a.stop < b.start :=
      List.Pairwise.sublist (List.dropWhile_sublist p2) hpB
    have hD_mem : ∀ x ∈ D, r.stop < x.start := by
      cases hDc : D with
      | nil => intro x hx; exact absurd hx (List.not_mem_nil x)
      | cons d0 ds =>
        rw [hDc] at hpD hD_subB
        have hd0 : p2 d0 = false := dropWhile_head_false (hD.symm.trans hDc)
        rw [hp2] at hd0
        simp only [decide_eq_false_iff_not, Nat.not_le] at hd0
        intro x hx
        rcases List.mem_cons.mp hx with rfl | hx2
        · exact hd0
        · have hrel : d0.stop < x.start := (List.pairwise_cons.mp hpD).1 x hx2
          have hd0v : d0.start < d0.stop :=
            hv d0 (hB_sub (hD_subB (List.mem_cons_self _ _)))
          omega
    -- the two partition points
    have hA_p2 : ∀ x ∈ A, p2 x = true := by
      intro x hx
      have h1 := hA_mem x hx
      have h2 := hv x (hA_sub hx)
      rw [hp2]
      simp
      omega
    have hright : l.takeWhile p2 = A ++ M := by
      conv_lhs => rw [hlAB]
      rw [takeWhile_append_all hA_p2]
    -- cross facts from the global pairwise
    have hcrossAB : ∀ x ∈ A, ∀ y ∈ B, x.stop < y.start := by
      have := (List.pairwise_append.mp (hlAB ▸ hp)).2.2
      exact this
    have hcrossMD : ∀ x ∈ M, ∀ y ∈ D, x.stop < y.start := by
      have := (List.pairwise_append.mp (hBMD ▸ hpB)).2.2
      exact this
    have hpA : A.Pairwise fun a b => a.stop < b.start :=
      List.Pairwise.sublist (List.takeWhile_sublist p1) hp
    have hpM : M.Pairwise fun a b => a.stop < b.start :=
      List.Pairwise.sublist (List.takeWhile_sublist p2) hpB
    -- unfold add
    show Canonical (FileMultiRange.add l r) ∧ _
    unfold FileMultiRange.add partitionPoint
    rw [hlne]
    rw [if_neg Bool.false_ne_true]
    simp only []
    rw [show l.takeWhile (fun x => decide (x.stop < r.start)) = A from rfl,
      show l.takeWhile (fun x => decide (x.start ≤ r.stop)) = A ++ M from hright]
    cases hMc0 : M with
    | nil =>
      -- insert case: left = right
      rw [hMc0] at hBMD
      simp only [List.nil_append] at hBMD
      have hDB : D = B := hBMD.symm
      rw [List.length_append]
      simp only [List.length_nil, Nat.add_zero]
      rw [if_neg (Nat.lt_irrefl _)]
      have htake : l.take A.length = A := by
        conv_lhs => rw [hlAB]
        exact List.take_left A B
      have hdrop : l.drop A.length = B := by
        conv_lhs => rw [hlAB]
        exact List.drop_left A B
      rw [htake, hdrop]
      constructor
      · constructor
        · rw [List.pairwise_append]
          refine ⟨hpA, ?_, ?_⟩
          · rw [List.pairwise_cons]
            refine ⟨?_, hpB⟩
            intro y hy
            have := hD_mem y (hDB ▸ hy)
            omega
          · intro x hx y hy
            rcases List.mem_cons.mp hy with rfl | hy2
            · exact hA_mem x hx
            · exact hcrossAB x hx y hy2
        · intro x hx
          rcases List.mem_append.mp hx with hx2 | hx2
          · exact hv x (hA_sub hx2)
          · rcases List.mem_cons.mp hx2 with rfl | hx3
            · exact hr
            · exact hv x (hB_sub hx3)
      · intro p
        simp only [memPts, hlAB, List.mem_append, List.mem_cons]
        constructor
        · rintro ⟨x, hx | (rfl | hx), hb⟩
          · exact Or.inl ⟨x, Or.inl hx, hb⟩
          · exact Or.inr hb
          · exact Or.inl ⟨x, Or.inr hx, hb⟩
        · rintro (⟨x, hx | hx, hb⟩ | hb)
          · exact ⟨x, Or.inl hx, hb⟩
          · exact ⟨x, Or.inr (Or.inr hx), hb⟩
          · exact ⟨r, Or.inr (Or.inl rfl), hb⟩
    | cons m0 ms =>
      rw [← hMc0]
      have hMne : M ≠ [] := by rw [hMc0]; exact List.cons_ne_nil _ _
      have hMlen : 1 ≤ M.length := by
        rw [hMc0]; simp
      rw [List.length_append]
      rw [if_pos (by omega)]
      -- the three slice computations
      have hdropA : l.drop A.length = M ++ D := by
        conv_lhs => rw [hlAB]
        rw [List.drop_left, hBMD]
      obtain ⟨M2, lm, hMc⟩ : ∃ M2 lm, M = M2 ++ [lm] := by
        rcases List.eq_nil_or_concat M with h | ⟨M2, lm, h⟩
        · exact absurd h hMne
        · rw [List.concat_eq_append] at h
          exact ⟨M2, lm, h⟩
      have hfirst : (l.drop A.length).headD ⟨0, 0⟩ = m0 := by
        rw [hdropA, hMc0]
        rfl
      have hlast : (l.drop (A.length + M.length - 1)).headD ⟨0, 0⟩ = lm := by
        have harith : A.length + M.length - 1 = A.length + (M.length - 1) := by omega
        rw [harith, hlAB, List.drop_append, hBMD, hMc]
        have hlen2 : (M2 ++ [lm]).length - 1 = M2.length := by simp
        rw [hlen2, List.append_assoc, List.drop_left]
        rfl
      rw [hfirst, hlast]
      have htake : l.take A.length = A := by
        conv_lhs => rw [hlAB]
        exact List.take_left A B
      have hdropR : l.drop (A.length + M.length) = D := by
        rw [hlAB, List.drop_append, hBMD, List.drop_left]
      rw [htake, hdropR]
      -- facts about m0 and lm
      have hm0M : ∀ x ∈ M, m0.start ≤ x.start := by
        intro x hx
        rw [hMc0] at hx
        rcases List.mem_cons.mp hx with rfl | hx2
        · exact le_refl _
        · have hrel : m0.stop < x.start := by
            rw [hMc0] at hpM
            exact (List.pairwise_cons.mp hpM).1 x hx2
          have hm0v : m0.start < m0.stop :=
            hv m0 (hB_sub (hM_subB (hMc0 ▸ List.mem_cons_self _ _)))
          omega
      have hlmM : ∀ x ∈ M, x.stop ≤ lm.stop := by
        intro x hx
        rw [hMc] at hx
        rcases List.mem_append.mp hx with hx2 | hx2
        · have hrel : x.stop < lm.start := by
            rw [hMc] at hpM
            exact (List.pairwise_append.mp hpM).2.2 x hx2 lm (List.mem_singleton_self _)
          have hlmv : lm.start < lm.stop :=
            hv lm (hB_sub (hM_subB (hMc ▸ List.mem_append_right _ (List.mem_singleton_self _))))
          omega
        · rw [List.mem_singleton.mp hx2]
      have hm0_mem : m0 ∈ M := hMc0 ▸ List.mem_cons_self _ _
      have hlm_mem : lm ∈ M := hMc ▸ List.mem_append_right _ (List.mem_singleton_self _)
      have hmval : min m0.start r.start < max lm.stop r.stop := by omega
      constructor
      · constructor
        · rw [List.pairwise_append]
          refine ⟨hpA, ?_, ?_⟩
          · rw [List.pairwise_cons]
            refine ⟨?_, hpD⟩
            intro y hy
            have h1 := hD_mem y hy
            have h2 := hcrossMD lm hlm_mem y hy
            simp only
            omega
          · intro x hx y hy
            rcases List.mem_cons.mp hy with rfl | hy2
            · have h1 := hA_mem x hx
              have h2 := hcrossAB x hx m0 (hM_subB hm0_mem)
              simp only
              omega
            · exact hcrossAB x hx y (hD_subB hy2)
        · intro x hx
          rcases List.mem_append.mp hx with hx2 | hx2
          · exact hv x (hA_sub hx2)
          · rcases List.mem_cons.mp hx2 with rfl | hx3
            · exact hmval
            · exact hv x (hB_sub (hD_subB hx3))
      · intro p
        have hMergedIff :
            (min m0.start r.start ≤ p ∧ p < max lm.stop r.stop) ↔
              ((∃ x ∈ M, x.start ≤ p ∧ p < x.stop) ∨ (r.start ≤ p ∧ p < r.stop)) := by
          constructor
          · rintro ⟨hp1, hp2⟩
            have hall : ∀ x ∈ m0 :: ms, r.start ≤ x.stop ∧ x.start ≤ r.stop := by
              intro x hx
              rw [← hMc0] at hx
              exact ⟨hB_mem x (hM_subB hx), hM_mem x hx⟩
            have hdisj : p < r.stop ∨ ∃ x ∈ m0 :: ms, p < x.stop := by
              rcases Nat.lt_or_ge p r.stop with h | h
              · exact Or.inl h
              · right
                exact ⟨lm, hMc0 ▸ hlm_mem, by omega⟩
            have := cover_lemma r hr ms m0 hall p hp1 hdisj
            rw [← hMc0] at this
            exact this
          · rintro (⟨x, hx, hb1, hb2⟩ | ⟨hb1, hb2⟩)
            · have h1 := hm0M x hx
              have h2 := hlmM x hx
              omega
            · omega
        simp only [memPts, hlAB, hBMD, List.mem_append, List.mem_cons]
        constructor
        · rintro ⟨x, hx | (rfl | hx), hb⟩
          · exact Or.inl ⟨x, Or.inl hx, hb⟩
          · rcases hMergedIff.mp hb with ⟨y, hy, hb2⟩ | hb2
            · exact Or.inl ⟨y, Or.inr (Or.inl hy), hb2⟩
            · exact Or.inr hb2
          · exact Or.inl ⟨x, Or.inr (Or.inr hx), hb⟩
        · rintro (⟨x, hx | hx, hb⟩ | hb)
          · exact ⟨x, Or.inl hx, hb⟩
          · rcases hx with hx2 | hx2
            · refine ⟨⟨min m0.start r.start, max lm.stop r.stop⟩, Or.inr (Or.inl rfl), ?_⟩
              exact hMergedIff.mpr (Or.inl ⟨x, hx2, hb⟩)
            · exact ⟨x, Or.inr (Or.inr hx2), hb⟩
          · refine ⟨⟨min m0.start r.start, max lm.stop r.stop⟩, Or.inr (Or.inl rfl), ?_⟩
            exact hMergedIff.mpr (Or.inr hb)

/-- Canonical lists are determined by their point sets. -/
theorem canonical_ext : ∀ (l1 l2 : List FileRange), Canonical l1 → Canonical l2 →
    (∀ p, memPts l1 p ↔ memPts l2 p) → l1 = l2 := by
  intro l1
  induction l1 with
  | nil =>
    intro l2 h1 h2 hm
    cases l2 with
    | nil => rfl
    | cons b t2 =>
      exfalso
      have hbm : memPts (b :: t2) b.start :=
        ⟨b, List.mem_cons_self _ _, le_refl _, h2.2 b (List.mem_cons_self _ _)⟩
      obtain ⟨x, hx, _⟩ := (hm b.start).mpr hbm
      exact absurd hx (List.not_mem_nil x)
  | cons a t1 ih =>
    intro l2 h1 h2 hm
    cases l2 with
    | nil =>
      exfalso
      have ham : memPts (a :: t1) a.start :=
        ⟨a, List.mem_cons_self _ _, le_refl _, h1.2 a (List.mem_cons_self _ _)⟩
      obtain ⟨x, hx, _⟩ := (hm a.start).mp ham
      exact absurd hx (List.not_mem_nil x)
    | cons b t2 =>
      obtain ⟨hp1, hv1⟩ := h1
      obtain ⟨hp2, hv2⟩ := h2
      have hav := hv1 a (List.mem_cons_self _ _)
      have hbv := hv2 b (List.mem_cons_self _ _)
      have hminA : ∀ p, memPts (a :: t1) p → a.start ≤ p := by
        rintro p ⟨x, hx, h3, h4⟩
        rcases List.mem_cons.mp hx with rfl | hx2
        · exact h3
        · have := (List.pairwise_cons.mp hp1).1 x hx2
          omega
      have hminB : ∀ p, memPts (b :: t2) p → b.start ≤ p := by
        rintro p ⟨x, hx, h3, h4⟩
        rcases List.mem_cons.mp hx with rfl | hx2
        · exact h3
        · have := (List.pairwise_cons.mp hp2).1 x hx2
          omega
      have hstart : a.start = b.start := by
        have ha1 := hminB a.start
          ((hm a.start).mp ⟨a, List.mem_cons_self _ _, le_refl _, hav⟩)
        have hb1 := hminA b.start
          ((hm b.start).mpr ⟨b, List.mem_cons_self _ _, le_refl _, hbv⟩)
        omega
      have hnotA : ¬ memPts (a :: t1) a.stop := by
        rintro ⟨x, hx, h3, h4⟩
        rcases List.mem_cons.mp hx with rfl | hx2
        · omega
        · have := (List.pairwise_cons.mp hp1).1 x hx2
          omega
      have hnotB : ¬ memPts (b :: t2) b.stop := by
        rintro ⟨x, hx, h3, h4⟩
        rcases List.mem_cons.mp hx with rfl | hx2
        · omega
        · have := (List.pairwise_cons.mp hp2).1 x hx2
          omega
      have hstop : a.stop = b.stop := by
        by_contra hne
        rcases Nat.lt_or_ge a.stop b.stop with h | h
        · exact hnotA ((hm a.stop).mpr ⟨b, List.mem_cons_self _ _, by omega, h⟩)
        · have h' : b.stop < a.stop := by omega
          exact hnotB ((hm b.stop).mp ⟨a, List.mem_cons_self _ _, by omega, h'⟩)
      have hab : a = b := by
        cases a
        cases b
        simp only at hstart hstop
        simp only [FileRange.mk.injEq]
        exact ⟨hstart, hstop⟩
      subst hab
      have hmt : ∀ p, memPts t1 p ↔ memPts t2 p := by
        intro p
        rcases Nat.lt_or_ge p a.stop with hlt | hge
        · constructor
          · rintro ⟨x, hx, h3, h4⟩
            have := (List.pairwise_cons.mp hp1).1 x hx
            exact absurd h3 (by omega)
          · rintro ⟨x, hx, h3, h4⟩
            have h5 := (List.pairwise_cons.mp hp2).1 x hx
            exact absurd h3 (by omega)
        · constructor
          · rintro hmem
            obtain ⟨x, hx, h3, h4⟩ := hmem
            have hfull : memPts (a :: t1) p := ⟨x, List.mem_cons_of_mem _ hx, h3, h4⟩
            obtain ⟨y, hy, h5, h6⟩ := (hm p).mp hfull
            rcases List.mem_cons.mp hy with rfl | hy2
            · exact absurd h6 (by omega)
            · exact ⟨y, hy2, h5, h6⟩
          · rintro hmem
            obtain ⟨x, hx, h3, h4⟩ := hmem
            have hfull : memPts (a :: t2) p := ⟨x, List.mem_cons_of_mem _ hx, h3, h4⟩
            obtain ⟨y, hy, h5, h6⟩ := (hm p).mpr hfull
            rcases List.mem_cons.mp hy with rfl | hy2
            · exact absurd h6 (by omega)
            · exact ⟨y, hy2, h5, h6⟩
      have htails := ih t2
        ⟨(List.pairwise_cons.mp hp1).2, fun x hx => hv1 x (List.mem_cons_of_mem _ hx)⟩
        ⟨(List.pairwise_cons.mp hp2).2, fun x hx => hv2 x (List.mem_cons_of_mem _ hx)⟩
        hmt
      rw [htails]

theorem foldl_add_spec : ∀ (rs acc : List FileRange),
    (∀ r ∈ rs, r.start < r.stop) → Canonical acc →
    Canonical (rs.foldl FileMultiRange.add acc) ∧
      ∀ p, memPts (rs.foldl FileMultiRange.add acc) p ↔
        memPts acc p ∨ ∃ r ∈ rs, r.start ≤ p ∧ p < r.stop := by
  intro rs
  induction rs with
  | nil =>
    intro acc _ hacc
    refine ⟨hacc, fun p => ?_⟩
    simp
  | cons r rest ih =>
    intro acc hv hacc
    have hr := hv r (List.mem_cons_self _ _)
    obtain ⟨hc1, hm1⟩ := add_spec acc r hacc hr
    obtain ⟨hc2, hm2⟩ :=
      ih (FileMultiRange.add acc r) (fun x hx => hv x (List.mem_cons_of_mem _ hx)) hc1
    refine ⟨hc2, fun p => ?_⟩
    rw [List.foldl_cons, hm2 p, hm1 p]
    constructor
    · rintro ((h | h) | h)
      · exact Or.inl h
      · exact Or.inr ⟨r, List.mem_cons_self _ _, h⟩
      · obtain ⟨x, hx, hb⟩ := h
        exact Or.inr ⟨x, List.mem_cons_of_mem _ hx, hb⟩
    · rintro (h | ⟨x, hx, hb⟩)
      · exact Or.inl (Or.inl h)
      · rcases List.mem_cons.mp hx with rfl | hx2
        · exact Or.inl (Or.inr hb)
        · exact Or.inr ⟨x, hx2, hb⟩

theorem addAll_spec (qs : List FileRange) (hv : ∀ r ∈ qs, r.start < r.stop) :
    Canonical (addAll qs) ∧
      ∀ p, memPts (addAll qs) p ↔ ∃ r ∈ qs, r.start ≤ p ∧ p < r.stop := by
  have hemp : Canonical ([] : List FileRange) :=
    ⟨List.Pairwise.nil, fun x hx => absurd hx (List.not_mem_nil x)⟩
  obtain ⟨h1, h2⟩ := foldl_add_spec qs [] hv hemp
  refine ⟨h1, fun p => ?_⟩
  unfold addAll
  rw [h2 p]
  simp [memPts]

/-- C1: every sequence of valid ranges added via `FileMultiRange::add` to an
    initially empty set yields a canonical inner sequence — pairwise separated
    by positive gaps (hence sorted by `start` with `Rᵢ.end < Rᵢ₊₁.start` for
    consecutive ranges; touching ranges are merged) and every stored range
    non-empty — whose point set is exactly the union of the added ranges;
    consequently adding the same range twice yields the same result as adding
    it once, and the resulting sequence is independent of the order of adds. -/
theorem C1_canonical_add (rs : List FileRange) (hv : ∀ r ∈ rs, r.start < r.stop) :
    Canonical (addAll rs) ∧
      (∀ p, memPts (addAll rs) p ↔ ∃ r ∈ rs, r.start ≤ p ∧ p < r.stop) ∧
      (∀ r, r.start < r.stop → addAll (rs ++ [r, r]) = addAll (rs ++ [r])) ∧
      (∀ rs2, rs.Perm rs2 → addAll rs2 = addAll rs) := by
  obtain ⟨h1, h2⟩ := addAll_spec rs hv
  refine ⟨h1, h2, ?_, ?_⟩
  · intro r hr
    have hv1 : ∀ x ∈ rs ++ [r], x.start < x.stop := by
      intro x hx
      rcases List.mem_append.mp hx with hx2 | hx2
      · exact hv x hx2
      · rw [List.mem_singleton.mp hx2]; exact hr
    have hv2 : ∀ x ∈ rs ++ [r, r], x.start < x.stop := by
      intro x hx
      rcases List.mem_append.mp hx with hx2 | hx2
      · exact hv x hx2
      · rcases List.mem_cons.mp hx2 with rfl | hx3
        · exact hr
        · rw [List.mem_singleton.mp hx3]; exact hr
    obtain ⟨hc2, hm2⟩ := addAll_spec (rs ++ [r, r]) hv2
    obtain ⟨hc1, hm1⟩ := addAll_spec (rs ++ [r]) hv1
    apply canonical_ext _ _ hc2 hc1
    intro p
    rw [hm2 p, hm1 p]
    constructor
    · rintro ⟨x, hx, hb⟩
      rcases List.mem_append.mp hx with hx2 | hx2
      · exact ⟨x, List.mem_append_left _ hx2, hb⟩
      · rcases List.mem_cons.mp hx2 with rfl | hx3
        · exact ⟨x, List.mem_append_right _ (List.mem_singleton_self _), hb⟩
        · have hxr : x = r := List.mem_singleton.mp hx3
          subst hxr
          exact ⟨x, List.mem_append_right _ (List.mem_singleton_self _), hb⟩
    · rintro ⟨x, hx, hb⟩
      rcases List.mem_append.mp hx with hx2 | hx2
      · exact ⟨x, List.mem_append_left _ hx2, hb⟩
      · have hxr : x = r := List.mem_singleton.mp hx2
        subst hxr
        exact ⟨x, List.mem_append_right _ (List.mem_cons_self _ _), hb⟩
  · intro rs2 hperm
    have hv2 : ∀ x ∈ rs2, x.start < x.stop := fun x hx => hv x (hperm.mem_iff.mpr hx)
    obtain ⟨hc2, hm2⟩ := addAll_spec rs2 hv2
    apply canonical_ext _ _ hc2 h1
    intro p
    rw [hm2 p, h2 p]
    constructor
    · rintro ⟨x, hx, hb⟩
      exact ⟨x, hperm.mem_iff.mpr hx, hb⟩
    · rintro ⟨x, hx, hb⟩
      exact ⟨x, hperm.mem_iff.mp hx, hb⟩

/-- C1 witness: the spec's scenario S1 — `add(1,3); add(3,5); add(7,9); add(2,8)`
    from empty — is canonical with point set `[1,9)`, doubling the last add
    changes nothing, and a reordering gives the same sequence. -/
theorem C1_witness :
    (Canonical (addAll [⟨1, 3⟩, ⟨3, 5⟩, ⟨7, 9⟩, ⟨2, 8⟩]) ∧
      (∀ p, memPts (addAll [⟨1, 3⟩, ⟨3, 5⟩, ⟨7, 9⟩, ⟨2, 8⟩]) p ↔
        ∃ r ∈ ([⟨1, 3⟩, ⟨3, 5⟩, ⟨7, 9⟩, ⟨2, 8⟩] : List FileRange),
          r.start ≤ p ∧ p < r.stop) ∧
      (∀ r, r.start < r.stop →
        addAll ([⟨1, 3⟩, ⟨3, 5⟩, ⟨7, 9⟩, ⟨2, 8⟩] ++ [r, r])
          = addAll ([⟨1, 3⟩, ⟨3, 5⟩, ⟨7, 9⟩, ⟨2, 8⟩] ++ [r])) ∧
      (∀ rs2, List.Perm [⟨1, 3⟩, ⟨3, 5⟩, ⟨7, 9⟩, ⟨2, 8⟩] rs2 →
        addAll rs2 = addAll [⟨1, 3⟩, ⟨3, 5⟩, ⟨7, 9⟩, ⟨2, 8⟩])) ∧
      addAll [⟨1, 3⟩, ⟨3, 5⟩, ⟨7, 9⟩, ⟨2, 8⟩] = [⟨1, 9⟩] :=
  ⟨C1_canonical_add [⟨1, 3⟩, ⟨3, 5⟩, ⟨7, 9⟩, ⟨2, 8⟩] (by decide), rfl⟩

/-! ### Message codec (src/inbound/codec.rs, src/inbound/msg.rs)

The body serialisation is `bincode` with `config::standard()` (little-endian,
varint integers), whose derive semantics for the concrete `Msg` type is
embedded here: unsigned integers as varints (single byte below 251; markers
251/252/253 followed by 2/4/8 little-endian bytes), enum variant indices as
`u32` varints, `Vec<u8>`/`String` as a `u64`-varint length followed by the raw
bytes (strings are UTF-8-validated on decode; a Rust `String` is modelled as
its UTF-8 byte vector), `Ipv6Addr` as its 16 raw octets, and struct fields in
declaration order.  `Uid` is a newtype over `String`; `FileHash` is `u64`.
The decoder model accepts any marker a `u64` accepts; narrower integer fields
only ever see the markers their encoders emit on the round-trip paths proved
here. -/
def toLEBytes : Nat → Nat → List Nat
  | 0, _ => []
  | w + 1, n => (n % 256) :: toLEBytes w (n / 256)

def fromLEBytes : List Nat → Nat
  | [] => 0
  | b :: bs => b + 256 * fromLEBytes bs

def encVarint (n : Nat) : List Nat :=
  if n < 251 then [n]
  else if n < 2 ^ 16 then 251 :: toLEBytes 2 n
  else if n < 2 ^ 32 then 252 :: toLEBytes 4 n
  else 253 :: toLEBytes 8 n

def decVarint : List Nat → Option (Nat × List Nat)
  | [] => none
  | b :: bs =>
    if b < 251 then some (b, bs)
    else if b = 251 then
      match bs with
      | b0 :: b1 :: rest => some (fromLEBytes [b0, b1], rest)
      | _ => none
    else if b = 252 then
      match bs with
      | b0 :: b1 :: b2 :: b3 :: rest => some (fromLEBytes [b0, b1, b2, b3], rest)
      | _ => none
    else if b = 253 then
      match bs with
      | b0 :: b1 :: b2 :: b3 :: b4 :: b5 :: b6 :: b7 :: rest =>
        some (fromLEBytes [b0, b1, b2, b3, b4, b5, b6, b7], rest)
      | _ => none
    else none

theorem decVarint_enc (n : Nat) (h : n < 2 ^ 64) (tail : List Nat) :
    decVarint (encVarint n ++ tail) = some (n, tail) := by
  unfold encVarint
  by_cases h1 : n < 251
  · rw [if_pos h1]
    simp only [List.cons_append, List.nil_append, decVarint]
    rw [if_pos h1]
  · rw [if_neg h1]
    by_cases h2 : n < 2 ^ 16
    · rw [if_pos h2]
      simp only [toLEBytes, List.cons_append, List.nil_append, decVarint, fromLEBytes]
      norm_num
      omega
    · rw [if_neg h2]
      by_cases h3 : n < 2 ^ 32
      · rw [if_pos h3]
        simp only [toLEBytes, List.cons_append, List.nil_append, decVarint, fromLEBytes]
        norm_num
        omega
      · rw [if_neg h3]
        simp only [toLEBytes, List.cons_append, List.nil_append, decVarint, fromLEBytes]
        norm_num
        omega

def encBytes (bs : List Nat) : List Nat := encVarint bs.length ++ bs

def decTake (n : Nat) (l : List Nat) : Option (List Nat × List Nat) :=
  if n ≤ l.length then some (l.take n, l.drop n) else none

def decBytes (l : List Nat) : Option (List Nat × List Nat) :=
  match decVarint l with
  | none => none
  | some (n, rest) => decTake n rest

theorem decTake_exact (bs tail : List Nat) :
    decTake bs.length (bs ++ tail) = some (bs, tail) := by
  unfold decTake
  rw [if_pos (by simp)]
  rw [List.take_left, List.drop_left]

theorem decBytes_enc (bs : List Nat) (h : bs.length < 2 ^ 64) (tail : List Nat) :
    decBytes (encBytes bs ++ tail) = some (bs, tail) := by
  unfold encBytes decBytes
  rw [List.append_assoc, decVarint_enc bs.length h]
  exact decTake_exact bs tail

def utf8Cont (c : Nat) : Bool := 0x80 ≤ c && c ≤ 0xBF

def utf8Valid : List Nat → Bool
  | [] => true
  | b :: rest =>
    if b < 0x80 then utf8Valid rest
    else if b < 0xC2 then false
    else if b ≤ 0xDF then
      match rest with
      | c1 :: r2 => utf8Cont c1 && utf8Valid r2
      | [] => false
    else if b = 0xE0 then
      match rest with
      | c1 :: c2 :: r2 => (0xA0 ≤ c1 && c1 ≤ 0xBF) && utf8Cont c2 && utf8Valid r2
      | _ => false
    else if b = 0xED then
      match rest with
      | c1 :: c2 :: r2 => (0x80 ≤ c1 && c1 ≤ 0x9F) && utf8Cont c2 && utf8Valid r2
      | _ => false
    else if b ≤ 0xEF then
      match rest with
      | c1 :: c2 :: r2 => utf8Cont c1 && utf8Cont c2 && utf8Valid r2
      | _ => false
    else if b = 0xF0 then
      match rest with
      | c1 :: c2 :: c3 :: r2 =>
        (0x90 ≤ c1 && c1 ≤ 0xBF) && utf8Cont c2 && utf8Cont c3 && utf8Valid r2
      | _ => false
    else if b ≤ 0xF3 then
      match rest with
      | c1 :: c2 :: c3 :: r2 => utf8Cont c1 && utf8Cont c2 && utf8Cont c3 && utf8Valid r2
      | _ => false
    else if b = 0xF4 then
      match rest with
      | c1 :: c2 :: c3 :: r2 =>
        (0x80 ≤ c1 && c1 ≤ 0x8F) && utf8Cont c2 && utf8Cont c3 && utf8Valid r2
      | _ => false
    else false

def decString (l : List Nat) : Option (List Nat × List Nat) :=
  match decBytes l with
  | none => none
  | some (bs, rest) => if utf8Valid bs then some (bs, rest) else none

theorem decString_enc (bs : List Nat) (hu : utf8Valid bs = true)
    (h : bs.length < 2 ^ 64) (tail : List Nat) :
    decString (encBytes bs ++ tail) = some (bs, tail) := by
  unfold decString
  rw [decBytes_enc bs h tail]
  simp [hu]

structure UidM where
  bytes : List Nat
deriving DecidableEq, Repr

structure Ipv6M where
  octets : List Nat
deriving DecidableEq, Repr

inductive ScopedAddrM
  | Lan (addr : Ipv6M) (scope : Nat)
  | Wan (addr : Ipv6M)
deriving DecidableEq, Repr

structure EndPointM where
  addr : ScopedAddrM
  port : Nat
deriving DecidableEq, Repr

inductive HandshakeM
  | Hello
  | Exchange (d : List Nat)
  | Full (d : List Nat)
deriving DecidableEq, Repr

inductive Msg
  | Discovery (host : UidM) (remote : EndPointM)
  | Auth (host : UidM) (state : HandshakeM)
  | Task (owner : UidM) (hash : Nat) (fileName : List Nat) (total : Nat)
  | Transfer (host : UidM) (payload : List Nat)
deriving DecidableEq, Repr

def ScopedAddrM.enc : ScopedAddrM → List Nat
  | .Lan a s => encVarint 0 ++ a.octets ++ encVarint s
  | .Wan a => encVarint 1 ++ a.octets

def ScopedAddrM.dec (l : List Nat) : Option (ScopedAddrM × List Nat) :=
  match decVarint l with
  | none => none
  | some (idx, r) =>
    if idx = 0 then
      match decTake 16 r with
      | none => none
      | some (oct, r2) =>
        match decVarint r2 with
        | none => none
        | some (s, r3) => some (.Lan ⟨oct⟩ s, r3)
    else if idx = 1 then
      match decTake 16 r with
      | none => none
      | some (oct, r2) => some (.Wan ⟨oct⟩, r2)
    else none

def EndPointM.enc (e : EndPointM) : List Nat := e.addr.enc ++ encVarint e.port

def EndPointM.dec (l : List Nat) : Option (EndPointM × List Nat) :=
  match ScopedAddrM.dec l with
  | none => none
  | some (a, r) =>
    match decVarint r with
    | none => none
    | some (p, r2) => some (⟨a, p⟩, r2)

def HandshakeM.enc : HandshakeM → List Nat
  | .Hello => encVarint 0
  | .Exchange d => encVarint 1 ++ encBytes d
  | .Full d => encVarint 2 ++ encBytes d

def HandshakeM.dec (l : List Nat) : Option (HandshakeM × List Nat) :=
  match decVarint l with
  | none => none
  | some (idx, r) =>
    if idx = 0 then some (.Hello, r)
    else if idx = 1 then
      match decBytes r with
      | none => none
      | some (d, r2) => some (.Exchange d, r2)
    else if idx = 2 then
      match decBytes r with
      | none => none
      | some (d, r2) => some (.Full d, r2)
    else none

def Msg.encBody : Msg → List Nat
  | .Discovery h r => encVarint 0 ++ encBytes h.bytes ++ r.enc
  | .Auth h s => encVarint 1 ++ encBytes h.bytes ++ s.enc
  | .Task o hash nm total =>
      encVarint 2 ++ encBytes o.bytes ++ encVarint hash ++ encBytes nm ++ encVarint total
  | .Transfer h payload => encVarint 3 ++ encBytes h.bytes ++ encBytes payload

def Msg.decBody (l : List Nat) : Option (Msg × List Nat) :=
  match decVarint l with
  | none => none
  | some (idx, r) =>
    if idx = 0 then
      match decString r with
      | none => none
      | some (h, r2) =>
        match EndPointM.dec r2 with
        | none => none
        | some (e, r3) => some (.Discovery ⟨h⟩ e, r3)
    else if idx = 1 then
      match decString r with
      | none => none
      | some (h, r2) =>
        match HandshakeM.dec r2 with
        | none => none
        | some (s, r3) => some (.Auth ⟨h⟩ s, r3)
    else if idx = 2 then
      match decString r with
      | none => none
      | some (o, r2) =>
        match decVarint r2 with
        | none => none
        | some (hash, r3) =>
          match decString r3 with
          | none => none
          | some (nm, r4) =>
            match decVarint r4 with
            | none => none
            | some (total, r5) => some (.Task ⟨o⟩ hash nm total, r5)
    else if idx = 3 then
      match decString r with
      | none => none
      | some (h, r2) =>
        match decBytes r2 with
        | none => none
        | some (pl, r3) => some (.Transfer ⟨h⟩ pl, r3)
    else none

def UidM.WF (u : UidM) : Prop :=
  utf8Valid u.bytes = true ∧ u.bytes.length < 2 ^ 64

def Ipv6M.WF (a : Ipv6M) : Prop :=
  a.octets.length = 16 ∧ ∀ b ∈ a.octets, b < 256

def ScopedAddrM.WF : ScopedAddrM → Prop
  | .Lan a s => a.WF ∧ s < 2 ^ 32
  | .Wan a => a.WF

def EndPointM.WF (e : EndPointM) : Prop := e.addr.WF ∧ e.port < 2 ^ 16

def HandshakeM.WF : HandshakeM → Prop
  | .Hello => True
  | .Exchange d => d.length < 2 ^ 64 ∧ ∀ b ∈ d, b < 256
  | .Full d => d.length < 2 ^ 64 ∧ ∀ b ∈ d, b < 256

def Msg.WF : Msg → Prop
  | .Discovery h r => h.WF ∧ r.WF
  | .Auth h s => h.WF ∧ s.WF
  | .Task o hash nm total =>
      o.WF ∧ hash < 2 ^ 64 ∧ (utf8Valid nm = true ∧ nm.length < 2 ^ 64) ∧ total < 2 ^ 64
  | .Transfer h pl => h.WF ∧ pl.length < 2 ^ 64 ∧ ∀ b ∈ pl, b < 256

instance : DecidablePred UidM.WF := fun u =>
  inferInstanceAs (Decidable (_ ∧ _))

instance : DecidablePred Ipv6M.WF := fun a =>
  inferInstanceAs (Decidable (_ ∧ _))

instance : DecidablePred ScopedAddrM.WF := fun a => by
  cases a <;> (unfold ScopedAddrM.WF; infer_instance)

instance : DecidablePred EndPointM.WF := fun e =>
  inferInstanceAs (Decidable (_ ∧ _))

instance : DecidablePred HandshakeM.WF := fun s => by
  cases s <;> (unfold HandshakeM.WF; infer_instance)

instance : DecidablePred Msg.WF := fun m => by
  cases m <;> (unfold Msg.WF; infer_instance)

theorem scopedAddr_dec_enc (a : ScopedAddrM) (h : a.WF) (tail : List Nat) :
    ScopedAddrM.dec (a.enc ++ tail) = some (a, tail) := by
  cases a with
  | Lan addr s =>
    obtain ⟨⟨hlen, _⟩, hs⟩ := h
    unfold ScopedAddrM.enc ScopedAddrM.dec
    rw [List.append_assoc, List.append_assoc, decVarint_enc 0 (by norm_num)]
    have hdt : decTake 16 (addr.octets ++ (encVarint s ++ tail))
        = some (addr.octets, encVarint s ++ tail) := by
      rw [← hlen]
      exact decTake_exact _ _
    norm_num
    rw [hdt]
    norm_num
    rw [decVarint_enc s (by omega)]
  | Wan addr =>
    obtain ⟨hlen, _⟩ := h
    unfold ScopedAddrM.enc ScopedAddrM.dec
    rw [List.append_assoc, decVarint_enc 1 (by norm_num)]
    norm_num
    have hdt : decTake 16 (addr.octets ++ tail) = some (addr.octets, tail) := by
      rw [← hlen]
      exact decTake_exact _ _
    rw [hdt]

theorem endPoint_dec_enc (e : EndPointM) (h : e.WF) (tail : List Nat) :
    EndPointM.dec (e.enc ++ tail) = some (e, tail) := by
  obtain ⟨ha, hp⟩ := h
  unfold EndPointM.enc EndPointM.dec
  rw [List.append_assoc, scopedAddr_dec_enc e.addr ha]
  simp only []
  rw [decVarint_enc e.port (by omega)]

theorem handshake_dec_enc (s : HandshakeM) (h : s.WF) (tail : List Nat) :
    HandshakeM.dec (s.enc ++ tail) = some (s, tail) := by
  cases s with
  | Hello =>
    unfold HandshakeM.enc HandshakeM.dec
    rw [decVarint_enc 0 (by norm_num)]
    norm_num
  | Exchange d =>
    obtain ⟨hl, _⟩ := h
    unfold HandshakeM.enc HandshakeM.dec
    rw [List.append_assoc, decVarint_enc 1 (by norm_num)]
    norm_num
    rw [decBytes_enc d hl]
  | Full d =>
    obtain ⟨hl, _⟩ := h
    unfold HandshakeM.enc HandshakeM.dec
    rw [List.append_assoc, decVarint_enc 2 (by norm_num)]
    norm_num
    rw [decBytes_enc d hl]

theorem msg_decBody_enc (m : Msg) (h : m.WF) (tail : List Nat) :
    Msg.decBody (m.encBody ++ tail) = some (m, tail) := by
  cases m with
  | Discovery host remote =>
    obtain ⟨⟨hu, hul⟩, hr⟩ := h
    unfold Msg.encBody Msg.decBody
    rw [List.append_assoc, List.append_assoc, decVarint_enc 0 (by norm_num)]
    norm_num
    rw [decString_enc host.bytes hu hul]
    simp only []
    rw [endPoint_dec_enc remote hr]
  | Auth host state =>
    obtain ⟨⟨hu, hul⟩, hs⟩ := h
    unfold Msg.encBody Msg.decBody
    rw [List.append_assoc, List.append_assoc, decVarint_enc 1 (by norm_num)]
    norm_num
    rw [decString_enc host.bytes hu hul]
    simp only []
    rw [handshake_dec_enc state hs]
  | Task owner hash nm total =>
    obtain ⟨⟨hu, hul⟩, hh, ⟨hnu, hnl⟩, ht⟩ := h
    unfold Msg.encBody Msg.decBody
    rw [List.append_assoc, List.append_assoc, List.append_assoc, List.append_assoc,
      decVarint_enc 2 (by norm_num)]
    norm_num
    rw [decString_enc owner.bytes hu hul]
    simp only []
    rw [decVarint_enc hash hh]
    simp only []
    rw [decString_enc nm hnu hnl]
    simp only []
    rw [decVarint_enc total ht]
  | Transfer host payload =>
    obtain ⟨⟨hu, hul⟩, hpl, _⟩ := h
    unfold Msg.encBody Msg.decBody
    rw [List.append_assoc, List.append_assoc, decVarint_enc 3 (by norm_num)]
    norm_num
    rw [decString_enc host.bytes hu hul]
    simp only []
    rw [decBytes_enc payload hpl]

def PROTOCOL_VERSION : Nat := 0

def MsgCodec.encode (m : Msg) : Option (List Nat) :=
  if m.encBody.length + 3 ≤ 65535 then
    some ((m.encBody.length + 3) / 256 :: (m.encBody.length + 3) % 256
      :: PROTOCOL_VERSION :: m.encBody)
  else none

/-- Result of one `MsgCodec::decode` call: `needMore` is `Ok(None)` with the
    buffer untouched, `skipped` is the version-mismatch `Ok(None)` after
    `advance(msg_len)`, `msg` is `Ok(Some(_))`, `fail` is the `Err` from a body
    that does not deserialize, and `panicked` is the slice-index panic raised
    by `split_to(msg_len)[HDR_LEN..]` when the parsed length field is below the
    3-byte header (reachable only from such malformed input). -/
inductive DecodeOutcome
  | needMore
  | skipped
  | msg (m : Msg)
  | fail
  | panicked
deriving DecidableEq, Repr

/-- `MsgCodec::decode`, with the `msg_len`/`protocol_version` locals inlined.
    Branch order follows the source: header-length check, whole-datagram
    length check (the `reserve` is a no-op here), version check with
    `advance(msg_len)`, then `split_to(msg_len)[HDR_LEN..]` and the body
    decode.  On the last path, when `msg_len < 3` the slice index `[3..]` of
    the `msg_len`-byte split is out of range and Rust panics; the model makes
    that branch explicit as `panicked` (the buffer had already been split when
    the panic fires, but the panic propagates to the caller). -/
def MsgCodec.decode (src : List Nat) : DecodeOutcome × List Nat :=
  if src.length < 3 then (.needMore, src)
  else if src.length < 256 * src.getD 0 0 + src.getD 1 0 then (.needMore, src)
  else if src.getD 2 0 ≠ PROTOCOL_VERSION then
    (.skipped, src.drop (256 * src.getD 0 0 + src.getD 1 0))
  else if 256 * src.getD 0 0 + src.getD 1 0 < 3 then
    (.panicked, src.drop (256 * src.getD 0 0 + src.getD 1 0))
  else
    match Msg.decBody ((src.take (256 * src.getD 0 0 + src.getD 1 0)).drop 3) with
    | some (m, _) => (.msg m, src.drop (256 * src.getD 0 0 + src.getD 1 0))
    | none => (.fail, src.drop (256 * src.getD 0 0 + src.getD 1 0))

/-- C3: for every well-typed message, decoding the exact encoder output yields
    that message and leaves the buffer empty, and on every strict prefix the
    decoder returns "need more" without consuming anything (the length field is
    parsed once three bytes are present, and the whole datagram is awaited). -/
theorem C3_codec_roundtrip (m : Msg) (hwf : Msg.WF m) (frame : List Nat)
    (henc : MsgCodec.encode m = some frame) :
    MsgCodec.decode frame = (.msg m, []) ∧
      ∀ k, k < frame.length →
        MsgCodec.decode (frame.take k) = (.needMore, frame.take k) := by
  unfold MsgCodec.encode at henc
  by_cases hfit : m.encBody.length + 3 ≤ 65535
  · rw [if_pos hfit] at henc
    injection henc with henc
    subst henc
    have hLdiv : (m.encBody.length + 3) / 256 < 256 := by omega
    constructor
    · unfold MsgCodec.decode
      rw [if_neg (by simp)]
      have hgd0 : ((m.encBody.length + 3) / 256 :: (m.encBody.length + 3) % 256
          :: PROTOCOL_VERSION :: m.encBody).getD 0 0 = (m.encBody.length + 3) / 256 := rfl
      have hgd1 : ((m.encBody.length + 3) / 256 :: (m.encBody.length + 3) % 256
          :: PROTOCOL_VERSION :: m.encBody).getD 1 0 = (m.encBody.length + 3) % 256 := rfl
      have hgd2 : ((m.encBody.length + 3) / 256 :: (m.encBody.length + 3) % 256
          :: PROTOCOL_VERSION :: m.encBody).getD 2 0 = PROTOCOL_VERSION := rfl
      rw [hgd0, hgd1, hgd2]
      have hL : 256 * ((m.encBody.length + 3) / 256) + (m.encBody.length + 3) % 256
          = m.encBody.length + 3 := by omega
      rw [hL]
      have hlen : ((m.encBody.length + 3) / 256 :: (m.encBody.length + 3) % 256
          :: PROTOCOL_VERSION :: m.encBody).length = m.encBody.length + 3 := by simp
      rw [if_neg (by rw [hlen]; omega), if_neg (by simp), if_neg (by omega)]
      have htk : (((m.encBody.length + 3) / 256 :: (m.encBody.length + 3) % 256
          :: PROTOCOL_VERSION :: m.encBody).take (m.encBody.length + 3)).drop 3
          = m.encBody := by
        rw [List.take_of_length_le (by simp)]
        rfl
      rw [htk]
      have hdec : Msg.decBody m.encBody = some (m, []) := by
        have := msg_decBody_enc m hwf []
        rwa [List.append_nil] at this
      rw [hdec]
      have hdrop : ((m.encBody.length + 3) / 256 :: (m.encBody.length + 3) % 256
          :: PROTOCOL_VERSION :: m.encBody).drop (m.encBody.length + 3) = [] := by
        apply List.drop_eq_nil_of_le
        simp
      rw [hdrop]
    · intro k hk
      simp only [List.length_cons] at hk
      unfold MsgCodec.decode
      by_cases hk3 : k < 3
      · rw [if_pos]
        rw [List.length_take]
        simp only [List.length_cons]
        omega
      · obtain ⟨k2, rfl⟩ : ∃ k2, k = k2 + 3 := ⟨k - 3, by omega⟩
        have htk : (((m.encBody.length + 3) / 256 :: (m.encBody.length + 3) % 256
            :: PROTOCOL_VERSION :: m.encBody).take (k2 + 3))
            = (m.encBody.length + 3) / 256 :: (m.encBody.length + 3) % 256
              :: PROTOCOL_VERSION :: m.encBody.take k2 := by
          simp [List.take_succ_cons]
        rw [htk]
        rw [if_neg (by simp)]
        have hcond : ((m.encBody.length + 3) / 256 :: (m.encBody.length + 3) % 256
            :: PROTOCOL_VERSION :: m.encBody.take k2).length
            < 256 * ((m.encBody.length + 3) / 256 :: (m.encBody.length + 3) % 256
                :: PROTOCOL_VERSION :: m.encBody.take k2).getD 0 0
              + ((m.encBody.length + 3) / 256 :: (m.encBody.length + 3) % 256
                :: PROTOCOL_VERSION :: m.encBody.take k2).getD 1 0 := by
          simp only [List.getD_cons_zero, List.getD_cons_succ, List.length_cons,
            List.length_take]
          omega
        rw [if_pos hcond]
  · rw [if_neg hfit] at henc
    exact Option.noConfusion henc

/-- C8 (amended): on a complete, correctly framed datagram (at least three
    bytes buffered, a length field `msg_len` that is at least the 3-byte header
    and fully buffered, the right protocol version) whose body fails to
    deserialize, the decoder returns a typed decode error, but the buffer HAS
    been advanced past the datagram: `src.split_to(msg_len)` runs before the
    body decode is attempted, so the datagram bytes are consumed and only the
    following bytes remain. -/
theorem C8_decode_error_advances (src : List Nat)
    (h3 : ¬ src.length < 3)
    (hml : 3 ≤ 256 * src.getD 0 0 + src.getD 1 0)
    (hlen : ¬ src.length < 256 * src.getD 0 0 + src.getD 1 0)
    (hver : src.getD 2 0 = PROTOCOL_VERSION)
    (hbad : Msg.decBody ((src.take (256 * src.getD 0 0 + src.getD 1 0)).drop 3) = none) :
    MsgCodec.decode src = (.fail, src.drop (256 * src.getD 0 0 + src.getD 1 0)) := by
  unfold MsgCodec.decode
  rw [if_neg h3, if_neg hlen, if_neg (by rw [hver]; simp), if_neg (by omega), hbad]

/-- C3 witness: the round trip evaluated on the concrete message
    `Auth { host: Uid("hi"), state: Handshake::Hello }`, whose frame is the 8
    bytes `[0, 8, 0, 1, 2, 104, 105, 0]`. -/
theorem C3_witness :
    MsgCodec.decode [0, 8, 0, 1, 2, 104, 105, 0]
        = (.msg (.Auth ⟨[104, 105]⟩ .Hello), []) ∧
      ∀ k, k < ([0, 8, 0, 1, 2, 104, 105, 0] : List Nat).length →
        MsgCodec.decode (([0, 8, 0, 1, 2, 104, 105, 0] : List Nat).take k)
          = (.needMore, ([0, 8, 0, 1, 2, 104, 105, 0] : List Nat).take k) :=
  C3_codec_roundtrip (.Auth ⟨[104, 105]⟩ .Hello) (by decide)
    [0, 8, 0, 1, 2, 104, 105, 0] (by decide)

/-- C8 counterexample: the well-framed datagram `[0, 4, 0, 200]` (length 4,
    version 0, body `[200]` — variant index 200 fails the body decode) makes
    the decoder return the decode error with the buffer EMPTY: the datagram
    bytes are no longer in the buffer, contradicting the claim that the buffer
    still contains them. -/
theorem C8_counterexample :
    MsgCodec.decode [0, 4, 0, 200] = (.fail, []) ∧
      ([] : List Nat) ≠ [0, 4, 0, 200] := by
  constructor
  · decide
  · decide

/-- C8 witness: the amended statement on the buffer `[0, 4, 0, 200, 9]` — the
    failed datagram is consumed and only the trailing byte 9 remains. -/
theorem C8_witness :
    MsgCodec.decode [0, 4, 0, 200, 9]
      = (.fail, ([0, 4, 0, 200, 9] : List Nat).drop
          (256 * ([0, 4, 0, 200, 9] : List Nat).getD 0 0
            + ([0, 4, 0, 200, 9] : List Nat).getD 1 0)) :=
  C8_decode_error_advances [0, 4, 0, 200, 9] (by decide) (by decide) (by decide)
    (by decide) (by decide)
